import Mathlib

/-!
Verification of the bc-object-range core against its specification.

The development shallowly embeds the TypeScript core of the repository:

* manifest normalization (src/models/schemas.ts: IdRangeSchema, AppJsonSchema,
  parseAppJson),
* the range calculator, range merger and conflict detectors
  (src/services/workspaceScanner.ts),
* the AL declaration scanner (src/parsers/alObjectParser.ts).

Machine integers are modelled as exact naturals / integers (all identifiers in
scope are far below 2^53, where JavaScript numbers are exact), JSON numbers as
rationals, and fallible operations return Option.
-/

namespace BCObjectRange

/-! ## JSON values

JSON.parse output is modelled by the inductive Json below; a JSON number is a
rational (finite JSON literals are exactly representable; JSON has no NaN or
infinity literals).  An object is a key/value list with unique keys, which is
what JSON.parse produces (later duplicates overwrite earlier ones). -/

inductive Json where
  | null : Json
  | bool (b : Bool) : Json
  | num (q : Rat) : Json
  | str (s : String) : Json
  | arr (elems : List Json) : Json
  | obj (fields : List (String × Json)) : Json

/-- Key lookup in a JSON object (first match; keys are unique). -/
def jsonLookup (kvs : List (String × Json)) (k : String) : Option Json :=
  match kvs with
  | [] => none
  | (k', v) :: rest => if k' = k then some v else jsonLookup rest k

/-- Identifier range as produced by manifest normalization (from src/types:
interface IdRange with fields from, to).  Lean reserves the word from, so the
fields are named from_ and to_. -/
structure IdRange where
  from_ : Nat
  to_ : Nat
deriving DecidableEq, Repr

/-- Normalized app.json record (src/models/schemas.ts, after the
AppJsonSchema transform: idRange folded into idRanges). -/
structure AppJson where
  id : String
  name : String
  publisher : String
  version : String
  idRanges : List IdRange
deriving DecidableEq, Repr

/-- Embedding of the zod check z.number().int().positive() (src/models/
schemas.ts lines 8-9): the value must be a JSON number that is a strictly
positive integer. -/
def parsePositiveInt (j : Json) : Option Nat :=
  match j with
  | Json.num q => if q.den = 1 ∧ 0 < q then some q.num.toNat else none
  | _ => none

/-- Embedding of IdRangeSchema (src/models/schemas.ts lines 6-13): an object
whose from and to members are strictly positive integers, refined by
to ≥ from.  Unknown keys are stripped, as zod does by default. -/
def IdRangeSchema (j : Json) : Option IdRange :=
  match j with
  | Json.obj kvs =>
    (jsonLookup kvs "from").bind fun jf =>
    (jsonLookup kvs "to").bind fun jt =>
    (parsePositiveInt jf).bind fun f =>
    (parsePositiveInt jt).bind fun t =>
    if t ≥ f then some ⟨f, t⟩ else none
  | _ => none

/-- Embedding of z.string().min(1) for a required object member. -/
def parseString1 (kvs : List (String × Json)) (k : String) : Option String :=
  match jsonLookup kvs k with
  | some (Json.str s) => if s.length ≥ 1 then some s else none
  | _ => none

/-- Traverse a list with a fallible parser (zod array semantics: every element
must validate, otherwise the whole array fails). -/
def mapOption (f : Json → Option IdRange) : List Json → Option (List IdRange)
  | [] => some []
  | j :: rest =>
    match f j, mapOption f rest with
    | some r, some rs => some (r :: rs)
    | _, _ => none

/-- Embedding of the optional idRanges member: absent is fine (none result in
the inner Option), present must be an array of valid ranges. -/
def parseOptRanges (kvs : List (String × Json)) : Option (Option (List IdRange)) :=
  match jsonLookup kvs "idRanges" with
  | none => some none
  | some (Json.arr xs) => (mapOption IdRangeSchema xs).map some
  | some _ => none

/-- Embedding of the optional idRange member. -/
def parseOptRange (kvs : List (String × Json)) : Option (Option IdRange) :=
  match jsonLookup kvs "idRange" with
  | none => some none
  | some j => (IdRangeSchema j).map some

/-- Embedding of AppJsonSchema (src/models/schemas.ts lines 18-37) including
its transform: idRanges wins when present, otherwise a lone idRange becomes a
one-element list, otherwise the list is empty. -/
def AppJsonSchema (j : Json) : Option AppJson :=
  match j with
  | Json.obj kvs =>
    (parseString1 kvs "id").bind fun i =>
    (parseString1 kvs "name").bind fun n =>
    (parseString1 kvs "publisher").bind fun p =>
    (parseString1 kvs "version").bind fun v =>
    (parseOptRanges kvs).bind fun rangesOpt =>
    (parseOptRange kvs).bind fun rangeOpt =>
    some { id := i, name := n, publisher := p, version := v,
           idRanges :=
             match rangesOpt with
             | some rs => rs
             | none =>
               match rangeOpt with
               | some r => [r]
               | none => [] }
  | _ => none

/-- Embedding of parseAppJson (src/models/schemas.ts lines 107-116).  The
JSON.parse platform call is modelled by the Option Json argument: none stands
for content that JSON.parse rejects (the try/catch turns the exception into
null), some j for content parsing to the value j. -/
def parseAppJson (parsed : Option Json) : Option AppJson :=
  match parsed with
  | none => none
  | some j => AppJsonSchema j

/-! ## Core data model (src/types/index.ts) -/

/-- The 13 AL object kinds that carry a numeric ID
(AL_OBJECT_TYPES_WITH_ID, src/types/index.ts lines 8-22, in source order). -/
inductive ALObjectType where
  | table
  | tableextension
  | page
  | pageextension
  | report
  | reportextension
  | codeunit
  | query
  | xmlport
  | enum
  | enumextension
  | permissionset
  | permissionsetextension
deriving DecidableEq, Repr

/-- The lower-case name of an object kind, as stored by the parser and
compared by localeCompare in the sort comparators (for these plain ASCII
strings localeCompare agrees with code-point order). -/
def ALObjectType.toStr : ALObjectType → String
  | .table => "table"
  | .tableextension => "tableextension"
  | .page => "page"
  | .pageextension => "pageextension"
  | .report => "report"
  | .reportextension => "reportextension"
  | .codeunit => "codeunit"
  | .query => "query"
  | .xmlport => "xmlport"
  | .enum => "enum"
  | .enumextension => "enumextension"
  | .permissionset => "permissionset"
  | .permissionsetextension => "permissionsetextension"

/-- Parsed AL object (interface ALObject, src/types/index.ts). -/
structure ALObject where
  type : ALObjectType
  id : Nat
  name : String
  lineNumber : Nat
  filePath : String
deriving DecidableEq, Repr

/-- AL project record (interface ALProject, src/types/index.ts). -/
structure ALProject where
  name : String
  rootPath : String
  idRanges : List IdRange
  objects : List ALObject
deriving DecidableEq, Repr

/-- Field declaration inside a table or tableextension (interface ALField). -/
structure ALField where
  id : Nat
  name : String
  dataType : String
  lineNumber : Nat
  filePath : String
deriving DecidableEq, Repr

/-- Enum value declaration inside an enum or enumextension
(interface ALEnumValue). -/
structure ALEnumValue where
  id : Nat
  name : String
  lineNumber : Nat
  filePath : String
deriving DecidableEq, Repr

/-- Extended AL object including extends clause, fields and enum values
(interface ALObjectWithFields).  The optional members model the TypeScript
optional properties: none stands for the absent property. -/
structure ALObjectWithFields where
  type : ALObjectType
  id : Nat
  name : String
  lineNumber : Nat
  filePath : String
  extendsObject : Option String
  fields : Option (List ALField)
  enumValues : Option (List ALEnumValue)
deriving DecidableEq, Repr

/-- Project whose objects carry field information
(interface ALProjectWithFields, src/services/workspaceScanner.ts). -/
structure ALProjectWithFields where
  name : String
  rootPath : String
  idRanges : List IdRange
  objects : List ALObjectWithFields
deriving DecidableEq, Repr

/-- Gap record produced by calculateGaps: the source field named end is a
Lean keyword and is called stop here. -/
structure Gap where
  start : Nat
  stop : Nat
  count : Nat
deriving DecidableEq, Repr

/-- Gap record produced by calculateSharedGaps (interface SharedIdGap). -/
structure SharedIdGap where
  start : Nat
  stop : Nat
  count : Nat
  objectType : ALObjectType
deriving DecidableEq, Repr

/-- Stable insertion of one element into a le-sorted list: the element goes
after every existing element that compares le to it, so earlier elements keep
their place on ties. -/
def insertSorted {α : Type} (le : α → α → Bool) (x : α) : List α → List α
  | [] => [x]
  | y :: ys => if le y x then y :: insertSorted le x ys else x :: y :: ys

/-- Stable sort by a boolean comparator.  Array.prototype.sort with a
consistent comparator is specified to be a stable sort, whose output is
uniquely determined, so this structurally recursive insertion sort is
extensionally the sort the source performs. -/
def stableSort {α : Type} (le : α → α → Bool) (l : List α) : List α :=
  l.foldl (fun acc x => insertSorted le x acc) []

/-! ## Range calculator (src/services/workspaceScanner.ts lines 229-286) -/

/-- Inner loop of calculateGaps over the identifiers of one range: the list
argument is the ids from..to in order, the Option argument is the JS gapStart
variable, hi is range.to (used by the final flush).  Mirrors the source loop
body line by line. -/
def scanIds (used : Nat → Bool) (hi : Nat) : List Nat → Option Nat → List Gap
  | [], none => []
  | [], some g => [⟨g, hi, hi - g + 1⟩]
  | id :: rest, none =>
    if used id then scanIds used hi rest none
    else scanIds used hi rest (some id)
  | id :: rest, some g =>
    if used id then ⟨g, id - 1, id - g⟩ :: scanIds used hi rest none
    else scanIds used hi rest (some g)

/-- Gaps contributed by a single configured range. -/
def rangeGaps (used : Nat → Bool) (r : IdRange) : List Gap :=
  scanIds used r.to_ (List.range' r.from_ (r.to_ + 1 - r.from_)) none

/-- The used-identifier set of a project: the ids of all its objects of every
kind pooled together (const usedIds = new Set(project.objects.map(o => o.id))). -/
def usedIdsOf (p : ALProject) : Nat → Bool :=
  fun id => decide (id ∈ p.objects.map ALObject.id)

/-- Embedding of calculateGaps (src/services/workspaceScanner.ts lines
229-275): one shared output array, each configured range scanned in input
order. -/
def calculateGaps (p : ALProject) : List Gap :=
  if p.idRanges = [] then []
  else p.idRanges.foldl (fun acc r => acc ++ rangeGaps (usedIdsOf p) r) []

/-- Embedding of getNextAvailableId (lines 280-286). -/
def getNextAvailableId (p : ALProject) : Option Nat :=
  match calculateGaps p with
  | [] => none
  | g :: _ => some g.start

/-! ## Range merger (src/services/workspaceScanner.ts lines 291-322) -/

/-- One step of the merge fold.  The accumulator holds the output ranges in
reverse order, so its head is the running range the source mutates in place. -/
def mergeStep (acc : List IdRange) (cur : IdRange) : List IdRange :=
  match acc with
  | [] => [cur]
  | last :: rest =>
    if cur.from_ ≤ last.to_ + 1 then ⟨last.from_, max last.to_ cur.to_⟩ :: rest
    else cur :: last :: rest

/-- Embedding of getSharedRanges: collect every project range, sort ascending
by from, fold merging overlapping or adjacent ranges. -/
def getSharedRanges (projects : List ALProject) : List IdRange :=
  match stableSort (fun a b => decide (a.from_ ≤ b.from_))
      (projects.flatMap ALProject.idRanges) with
  | [] => []
  | first :: rest => (rest.foldl mergeStep [first]).reverse

/-- The used-identifier set of shared mode: only ids of objects of the queried
kind, pooled across all projects (lines 339-346). -/
def usedOfType (projects : List ALProject) (t : ALObjectType) : Nat → Bool :=
  fun id =>
    decide (id ∈ projects.flatMap (fun p =>
      (p.objects.filter (fun o => o.type = t)).map ALObject.id))

/-- Embedding of calculateSharedGaps (lines 327-382): the scan loop is
textually the same as in calculateGaps except that each pushed gap also
carries the queried objectType, modelled here by mapping the shared loop
output. -/
def calculateSharedGaps (projects : List ALProject) (t : ALObjectType) :
    List SharedIdGap :=
  let shared := getSharedRanges projects
  if shared = [] then []
  else shared.foldl (fun acc r =>
    acc ++ (rangeGaps (usedOfType projects t) r).map
      (fun g => ⟨g.start, g.stop, g.count, t⟩)) []

/-! ## Conflict detectors (src/services/workspaceScanner.ts lines 401-521) -/

/-- Whole-object conflict record (interface IdConflict). -/
structure IdConflict where
  id : Nat
  type : ALObjectType
  objects : List ALObject
deriving DecidableEq, Repr

/-- Append a value to the group of its key, preserving the JS Map insertion
order (an existing key keeps its position, a new key goes to the back). -/
def insertGrouped {κ α : Type} [DecidableEq κ] (key : κ) (v : α) :
    List (κ × List α) → List (κ × List α)
  | [] => [(key, [v])]
  | (k, l) :: rest =>
    if k = key then (k, l ++ [v]) :: rest
    else (k, l) :: insertGrouped key v rest

/-- First-match lookup in a grouped map (JS Map.get). -/
def lookupG {κ α : Type} [DecidableEq κ] (m : List (κ × List α)) (k : κ) :
    Option (List α) :=
  match m with
  | [] => none
  | (k1, l1) :: rest => if k1 = k then some l1 else lookupG rest k

/-- Fold a key-value stream into the grouped map, as each detector builds its
JS Map by iterating its inputs. -/
def groupFold {κ α : Type} [DecidableEq κ] (stream : List (κ × α)) :
    List (κ × List α) :=
  stream.foldl (fun m kv => insertGrouped kv.1 kv.2 m) []

/-- Group all objects by their (type, id) key in traversal order.  The source
keys its Map by the string type + ":" + id, which is injective in the pair
(the kind names contain no colon and the decimal id contains no colon), so the
pair is used as the key directly. -/
def groupByTypeId (objs : List ALObject) : List ((ALObjectType × Nat) × List ALObject) :=
  objs.foldl (fun m o => insertGrouped (o.type, o.id) o m) []

/-- Embedding of Node path.dirname for the posix separator: skip trailing
slashes, then the basename; return everything before the separator found, or
the root / the dot fallback. -/
def dirname (p : String) : String :=
  let cs := p.data
  let r1 := cs.reverse.dropWhile (fun c => c = '/')
  let r2 := r1.dropWhile (fun c => c ≠ '/')
  if r2.length ≤ 1 then
    if cs.head? = some '/' then "/" else "."
  else
    String.mk (cs.take (r2.length - 1))

/-- Sort comparator of detectConflicts: by kind name, then id. -/
def idConflictLE (a b : IdConflict) : Bool :=
  if a.type.toStr = b.type.toStr then decide (a.id ≤ b.id)
  else decide (a.type.toStr < b.type.toStr)

/-- Body of the detectConflicts group loop: a group is reported when it has
more than one member and its members come from more than one distinct parent
directory (the Set of path.dirname values has size above one); the conflict
record takes id and type from the first group member. -/
def conflictOfGroup (e : (ALObjectType × Nat) × List ALObject) : Option IdConflict :=
  match e with
  | (_, objs) =>
    if objs.length > 1 then
      if (objs.map (fun o => dirname o.filePath)).dedup.length > 1 then
        match objs with
        | o :: _ => some ⟨o.id, o.type, objs⟩
        | [] => none
      else none
    else none

/-- Embedding of detectConflicts (src/services/workspaceScanner.ts lines
401-440): group by (type, id), keep groups with more than one member whose
files live in more than one distinct parent directory, sort by (type, id). -/
def detectConflicts (projects : List ALProject) : List IdConflict :=
  stableSort idConflictLE
    ((groupByTypeId (projects.flatMap ALProject.objects)).filterMap conflictOfGroup)

/-- JavaScript whitespace for the purposes of this embedding (the ASCII part
of the regex \s class and of parseInt skipping). -/
def isJsSpace (c : Char) : Bool :=
  c == ' ' || c == '\t' || c == '\n' || c == '\r' || c == '\x0b' || c == '\x0c'

/-- Numeric value of a list of decimal digit characters. -/
def digitsToNat (ds : List Char) : Nat :=
  ds.foldl (fun n c => n * 10 + (c.toNat - 48)) 0

/-- Embedding of JavaScript parseInt(s, 10): skip whitespace, optional sign,
parse the leading digit run; none models NaN. -/
def jsParseInt (s : String) : Option Int :=
  match s.data.dropWhile isJsSpace with
  | '-' :: rest =>
    let ds := rest.takeWhile Char.isDigit
    if ds = [] then none else some (-(Int.ofNat (digitsToNat ds)))
  | '+' :: rest =>
    let ds := rest.takeWhile Char.isDigit
    if ds = [] then none else some (Int.ofNat (digitsToNat ds))
  | cs =>
    let ds := cs.takeWhile Char.isDigit
    if ds = [] then none else some (Int.ofNat (digitsToNat ds))

/-- Entry stored in the field map of detectFieldConflicts. -/
structure FieldOccurrence where
  field : ALField
  projectName : String
  extensionId : Nat
  extensionName : String
deriving DecidableEq, Repr

/-- Conflicting field as reported: the field spread together with its
project and extension info. -/
structure ConflictField where
  id : Nat
  name : String
  dataType : String
  lineNumber : Nat
  filePath : String
  projectName : String
  extensionId : Nat
  extensionName : String
deriving DecidableEq, Repr

/-- Field conflict record (interface FieldConflict).  fieldId is the
parseInt of the second colon-separated key segment; none models the NaN the
source stores when a base table name itself contains a colon. -/
structure FieldConflict where
  fieldId : Option Int
  baseTable : String
  fields : List ConflictField
deriving DecidableEq, Repr

/-- The string key baseTable + ":" + fieldId used by the source field map. -/
def fieldKey (base : String) (fid : Nat) : String :=
  base ++ ":" ++ toString fid

/-- Collect field occurrences of all qualifying tableextensions, grouped by
(extendsName, field id).  The source keys its Map by the string
extendsName + ":" + fieldId, which is injective in the pair (the decimal id
contains no colon, so the last colon followed by digits determines the
split), so the pair is used as the key directly.  The qualification mirrors
the source truthiness checks: kind tableextension, extendsObject present and
non-empty, fields present and non-empty. -/
def collectFieldOccs (projects : List ALProjectWithFields) :
    List ((String × Nat) × List FieldOccurrence) :=
  projects.foldl (fun m p =>
    p.objects.foldl (fun m o =>
      match o.extendsObject, o.fields with
      | some base, some fs =>
        if o.type = ALObjectType.tableextension ∧ base ≠ "" ∧ fs.length > 0 then
          fs.foldl (fun m f =>
            insertGrouped (base, f.id) ⟨f, p.name, o.id, o.name⟩ m) m
        else m
      | _, _ => m) m) []

/-- Conflicting-field record built from an occurrence (the source object
spread). -/
def mkConflictField (oc : FieldOccurrence) : ConflictField :=
  ⟨oc.field.id, oc.field.name, oc.field.dataType, oc.field.lineNumber,
   oc.field.filePath, oc.projectName, oc.extensionId, oc.extensionName⟩

/-- Sort comparator of detectFieldConflicts: by base table name, then field
id (the id part only matters between groups of the same base, where it is
the numeric key part). -/
def fieldConflictLE (a b : FieldConflict) : Bool :=
  if a.baseTable = b.baseTable then decide ((a.fieldId.getD 0) ≤ (b.fieldId.getD 0))
  else decide (a.baseTable < b.baseTable)

/-- The same occurrence collection as collectFieldOccs written as one flat
key-value stream, used to state and prove group membership. -/
def fieldOccStream (projects : List ALProjectWithFields) :
    List ((String × Nat) × FieldOccurrence) :=
  projects.flatMap (fun p =>
    p.objects.flatMap (fun o =>
      match o.extendsObject, o.fields with
      | some base, some fs =>
        if o.type = ALObjectType.tableextension ∧ base ≠ "" ∧ fs.length > 0 then
          fs.map (fun f => ((base, f.id), (⟨f, p.name, o.id, o.name⟩ : FieldOccurrence)))
        else []
      | _, _ => []))

/-- Body of the detectFieldConflicts group loop: a group is reported when it
has more than one occurrence drawn from more than one distinct project name;
baseTable and fieldId are rebuilt from the string key with split(":") exactly
as the source does. -/
def fieldConflictOfGroup (e : (String × Nat) × List FieldOccurrence) :
    Option FieldConflict :=
  match e with
  | ((base, fid), occs) =>
    if occs.length > 1 then
      if (occs.map FieldOccurrence.projectName).dedup.length > 1 then
        some { fieldId := jsParseInt (((fieldKey base fid).splitOn ":").getD 1 ""),
               baseTable := ((fieldKey base fid).splitOn ":").getD 0 "",
               fields := occs.map mkConflictField }
      else none
    else none

/-- Embedding of detectFieldConflicts (src/services/workspaceScanner.ts lines
449-521): group field occurrences of qualifying tableextensions by
(extendsName, field id), keep groups with more than one occurrence from more
than one distinct project name, rebuild baseTable and fieldId from the string
key as the source does with split(":"), sort. -/
def detectFieldConflicts (projects : List ALProjectWithFields) : List FieldConflict :=
  stableSort fieldConflictLE ((collectFieldOccs projects).filterMap fieldConflictOfGroup)

/-! ## Declaration scanner (src/parsers/alObjectParser.ts)

The scanner is embedded as an explicit state machine folded over the lines of
the text unit; strings are processed as character lists.  Regular expressions
of the source are modelled by hand-rolled matchers with the exact semantics of
the JS patterns (ordered alternation with literal alternatives, greedy
digit/space runs, anchored or searched as in the source). -/

/-- First index of the two-character sequence ab (String.indexOf). -/
def idxOf2 (a b : Char) : List Char → Option Nat
  | x :: y :: rest =>
    if x = a ∧ y = b then some 0 else (idxOf2 a b (y :: rest)).map (· + 1)
  | _ => none

/-- Last index of the two-character sequence ab (String.lastIndexOf). -/
def lastIdxOf2 (a b : Char) : List Char → Option Nat
  | x :: y :: rest =>
    (match lastIdxOf2 a b (y :: rest) with
     | some n => some (n + 1)
     | none => if x = a ∧ y = b then some 0 else none)
  | _ => none

/-- Position just after the first closing marker of a block comment. -/
def findCloseIdx : List Char → Option Nat
  | '*' :: '/' :: _ => some 2
  | _ :: rest => (findCloseIdx rest).map (· + 1)
  | [] => none

/-- One pass of the global non-greedy block comment removal, scanning left to
right and removing each open marker together with its first close.  The fuel
bounds the character positions visited; every step consumes at least one
character, so fuel equal to the length always completes the pass. -/
def stripOnceFuel : Nat → List Char → List Char
  | 0, cs => cs
  | fuel + 1, cs =>
    match cs with
    | '/' :: '*' :: rest =>
      (match findCloseIdx rest with
       | some k => stripOnceFuel fuel (rest.drop k)
       | none => '/' :: '*' :: rest)
    | c :: rest => c :: stripOnceFuel fuel rest
    | [] => []

/-- One removal pass over a whole line. -/
def stripOnce (cs : List Char) : List Char :=
  stripOnceFuel cs.length cs

/-- The do/while loop of stripComments: repeat the one-pass removal until the
length stops changing.  Each productive pass removes at least one character,
so length + 1 rounds of fuel always reach the fixpoint the source loop
reaches. -/
def stripBlocksFuel : Nat → List Char → List Char
  | 0, cs => cs
  | fuel + 1, cs =>
    let cs' := stripOnce cs
    if cs'.length = cs.length then cs' else stripBlocksFuel fuel cs'

/-- Block comment removal to fixpoint. -/
def stripBlocks (cs : List Char) : List Char :=
  stripBlocksFuel (cs.length + 1) cs

/-- Cut everything from the first line comment marker on. -/
def cutLineComment (cs : List Char) : List Char :=
  match idxOf2 '/' '/' cs with
  | none => cs
  | some i => cs.take i

/-- Embedding of stripComments (src/parsers/alObjectParser.ts lines 219-237):
complete block comments removed to fixpoint, then the line comment cut. -/
def stripComments (line : List Char) : List Char :=
  cutLineComment (stripBlocks line)

/-- Embedding of hasUnclosedMultiLineComment (lines 242-259): one removal
pass, then the last open marker wins unless a line comment marker precedes
it. -/
def hasUnclosedMultiLineComment (line : List Char) : Bool :=
  match lastIdxOf2 '/' '*' (stripOnce line) with
  | none => false
  | some o =>
    match idxOf2 '/' '/' (stripOnce line) with
    | some i => if i < o then false else true
    | none => true

/-- Case-insensitive literal keyword match at the head, returning the rest. -/
def matchKw : List Char → List Char → Option (List Char)
  | [], cs => some cs
  | _ :: _, [] => none
  | k :: ks, c :: cs => if c.toLower = k.toLower then matchKw ks cs else none

/-- Greedy digit run, at least one digit. -/
def parseDigits (cs : List Char) : Option (Nat × List Char) :=
  let ds := cs.takeWhile Char.isDigit
  if ds = [] then none else some (digitsToNat ds, cs.drop ds.length)

/-- Greedy whitespace run, at least one character. -/
def skipSpaces1 (cs : List Char) : Option (List Char) :=
  let sp := cs.takeWhile isJsSpace
  if sp = [] then none else some (cs.drop sp.length)

/-- The two name forms of the patterns: a double-quoted non-empty string of
non-quote characters, or a bare identifier. -/
def matchName : List Char → Option (String × List Char)
  | '"' :: cs =>
    (let q := cs.takeWhile (fun c => c ≠ '"')
     match cs.drop q.length with
     | '"' :: rest => if q = [] then none else some (String.mk q, rest)
     | _ => none)
  | c :: cs =>
    if c.isAlpha ∨ c = '_' then
      let w := cs.takeWhile (fun d => d.isAlphanum ∨ d = '_')
      some (String.mk (c :: w), cs.drop w.length)
    else none
  | [] => none

/-- The 13 kind keywords in the source order of AL_OBJECT_TYPES_WITH_ID, the
order of the regex alternation. -/
def kindList : List (String × ALObjectType) :=
  [("table", ALObjectType.table), ("tableextension", ALObjectType.tableextension),
   ("page", ALObjectType.page), ("pageextension", ALObjectType.pageextension),
   ("report", ALObjectType.report), ("reportextension", ALObjectType.reportextension),
   ("codeunit", ALObjectType.codeunit), ("query", ALObjectType.query),
   ("xmlport", ALObjectType.xmlport), ("enum", ALObjectType.enum),
   ("enumextension", ALObjectType.enumextension),
   ("permissionset", ALObjectType.permissionset),
   ("permissionsetextension", ALObjectType.permissionsetextension)]

/-- One alternative of OBJECT_PATTERN: kind, then whitespace, digits,
whitespace, name.  Failure of any later part makes the engine try the next
alternative, which this returns as none. -/
def tryKind (kw : String) (t : ALObjectType) (cs : List Char) :
    Option (ALObjectType × Nat × String) :=
  match matchKw kw.data cs with
  | none => none
  | some r1 =>
    match skipSpaces1 r1 with
    | none => none
    | some r2 =>
      match parseDigits r2 with
      | none => none
      | some (n, r3) =>
        match skipSpaces1 r3 with
        | none => none
        | some r4 =>
          match matchName r4 with
          | none => none
          | some (nm, _) => some (t, n, nm)

/-- Ordered alternation over the kind keywords. -/
def tryKinds : List (String × ALObjectType) → List Char →
    Option (ALObjectType × Nat × String)
  | [], _ => none
  | (kw, t) :: rest, cs =>
    match tryKind kw t cs with
    | some r => some r
    | none => tryKinds rest cs

/-- Embedding of OBJECT_PATTERN (lines 18-23): anchored at the line start
after optional whitespace. -/
def matchHeader (cs : List Char) : Option (ALObjectType × Nat × String) :=
  tryKinds kindList (cs.dropWhile isJsSpace)

/-- The EXTENDS_PATTERN attempt at one position. -/
def tryExtendsAt (cs : List Char) : Option String :=
  match matchKw "extends".data cs with
  | none => none
  | some r1 =>
    match skipSpaces1 r1 with
    | none => none
    | some r2 =>
      match matchName r2 with
      | none => none
      | some (nm, _) => some nm

/-- Embedding of EXTENDS_PATTERN (lines 29-30): unanchored search, first
match wins; note the pattern has no word boundary. -/
def findExtends : List Char → Option String
  | [] => none
  | c :: cs =>
    match tryExtendsAt (c :: cs) with
    | some nm => some nm
    | none => findExtends cs

/-- JS String.prototype.trim on a character list. -/
def trimJs (cs : List Char) : String :=
  String.mk (((cs.dropWhile isJsSpace).reverse.dropWhile isJsSpace).reverse)

/-- Embedding of FIELD_PATTERN (lines 36-37), anchored: field ( id ; name ;
type-text ).  The type text is everything up to the first closing
parenthesis (at least one character, whitespace included), trimmed. -/
def matchField (cs0 : List Char) : Option (Nat × String × String) :=
  let cs := cs0.dropWhile isJsSpace
  match matchKw "field".data cs with
  | none => none
  | some r1 =>
    match r1.dropWhile isJsSpace with
    | '(' :: r3 =>
      (let r4 := r3.dropWhile isJsSpace
       match parseDigits r4 with
       | none => none
       | some (n, r5) =>
         match r5.dropWhile isJsSpace with
         | ';' :: r7 =>
           (let r8 := r7.dropWhile isJsSpace
            match matchName r8 with
            | none => none
            | some (nm, r9) =>
              match r9.dropWhile isJsSpace with
              | ';' :: r11 =>
                (let w := r11.takeWhile (fun c => c ≠ ')')
                 if w = [] then none
                 else
                   match r11.drop w.length with
                   | ')' :: _ => some (n, nm, trimJs w)
                   | _ => none)
              | _ => none)
         | _ => none)
    | _ => none

/-- Embedding of ENUM_VALUE_PATTERN (lines 43-44), anchored: value ( id ;
name ). -/
def matchValue (cs0 : List Char) : Option (Nat × String) :=
  let cs := cs0.dropWhile isJsSpace
  match matchKw "value".data cs with
  | none => none
  | some r1 =>
    match r1.dropWhile isJsSpace with
    | '(' :: r3 =>
      (let r4 := r3.dropWhile isJsSpace
       match parseDigits r4 with
       | none => none
       | some (n, r5) =>
         match r5.dropWhile isJsSpace with
         | ';' :: r7 =>
           (let r8 := r7.dropWhile isJsSpace
            match matchName r8 with
            | none => none
            | some (nm, r9) =>
              match r9.dropWhile isJsSpace with
              | ')' :: _ => some (n, nm)
              | _ => none)
         | _ => none)
    | _ => none

/-- Word character of the regex word boundary. -/
def isWordChar (c : Char) : Bool :=
  c.isAlphanum || c == '_'

/-- Does fields-whitespace-openbrace match at the head. -/
def fieldsBraceAt (cs : List Char) : Bool :=
  match matchKw "fields".data cs with
  | none => false
  | some r =>
    match r.dropWhile isJsSpace with
    | '\x7b' :: _ => true
    | _ => false

/-- Does fields-whitespace-endofline match at the head. -/
def fieldsEndAt (cs : List Char) : Bool :=
  match matchKw "fields".data cs with
  | none => false
  | some r => r.dropWhile isJsSpace = []

/-- Search for a head matcher at a word boundary anywhere in the line,
tracking the previous character. -/
def scanBoundary (p : List Char → Bool) : Option Char → List Char → Bool
  | _, [] => false
  | prev, c :: cs =>
    ((match prev with
      | none => true
      | some q => !isWordChar q) && p (c :: cs)) || scanBoundary p (some c) cs

/-- Number of occurrences of a character in the cleaned line. -/
def countChar (c : Char) (cs : List Char) : Nat :=
  (cs.filter (fun d => d = c)).length

/-- Is the kind one that carries fields. -/
def isTableKind (t : ALObjectType) : Bool :=
  t == ALObjectType.table || t == ALObjectType.tableextension

/-- Is the kind one that carries enum values. -/
def isEnumKind (t : ALObjectType) : Bool :=
  t == ALObjectType.enum || t == ALObjectType.enumextension

/-- Scanner state: the mutable locals of parseContent (lines 56-64), plus the
list of objects already pushed and the number of lines processed. -/
structure ScanState where
  inMultiLineComment : Bool
  current : Option ALObjectWithFields
  braceDepth : Int
  inFieldsBlock : Bool
  fieldsBlockDepth : Int
  expectingFieldsBlockBrace : Bool
  finished : List ALObjectWithFields
  lineNo : Nat
deriving DecidableEq, Repr

/-- The initial scanner state. -/
def initState : ScanState :=
  ⟨false, none, 0, false, 0, false, [], 0⟩

/-- The comment-continuation step (lines 71-80): inside a block comment the
line is skipped unless a close marker appears, in which case the rest of the
line is processed. -/
def effectiveLine (s : ScanState) (line : String) : Option (List Char) :=
  if s.inMultiLineComment then
    match idxOf2 '*' '/' line.data with
    | none => none
    | some k => some (line.data.drop (k + 2))
  else some line.data

/-- The header-match step of the loop (lines 85-124): a recognized header
starts a new current object, pushes the previous one, and resets the brace
context; otherwise the context is carried over unchanged. The tuple is
(current, finished, braceDepth, inFieldsBlock, expectingFieldsBlockBrace). -/
def headerCtx (fp : String) (s : ScanState) (lineNumber : Nat)
    (cleaned : List Char) :
    Option ALObjectWithFields × List ALObjectWithFields × Int × Bool × Bool :=
  match matchHeader cleaned with
  | some (ty, oid, nm) =>
    let newObj : ALObjectWithFields :=
      { type := ty, id := oid, name := nm, lineNumber := lineNumber,
        filePath := fp,
        extendsObject := findExtends cleaned,
        fields := if isTableKind ty then some [] else none,
        enumValues := if isEnumKind ty then some [] else none }
    (some newObj, s.finished ++ s.current.toList, (0 : Int), false, false)
  | none =>
    (s.current, s.finished, s.braceDepth, s.inFieldsBlock,
     s.expectingFieldsBlockBrace)

/-- The field-match step of the loop (lines 152-166): inside a fields block
of a table kind, a matching field line is appended to the current object. -/
def applyField (cleaned : List Char) (lineNumber : Nat) (fp : String)
    (inFields3 : Bool) (c? : Option ALObjectWithFields) :
    Option ALObjectWithFields :=
  match c? with
  | some c =>
    if inFields3 ∧ isTableKind c.type then
      match matchField cleaned with
      | some (fid, fnm, fty) =>
        some { c with fields := some (c.fields.getD [] ++
                 [ALField.mk fid fnm fty lineNumber fp]) }
      | none => some c
    else some c
  | none => none

/-- The enum-value step of the loop (lines 168-181): inside the braces of an
enum kind, a matching value line is appended to the current object. -/
def applyValue (cleaned : List Char) (lineNumber : Nat) (fp : String)
    (braceDepth2 : Int) (c? : Option ALObjectWithFields) :
    Option ALObjectWithFields :=
  match c? with
  | some c =>
    if isEnumKind c.type ∧ braceDepth2 > 0 then
      match matchValue cleaned with
      | some (vid, vnm) =>
        some { c with enumValues := some (c.enumValues.getD [] ++
                 [ALEnumValue.mk vid vnm lineNumber fp]) }
      | none => some c
    else some c
  | none => none

/-- The body of the per-line loop of parseContent (lines 82-209) on the
effective line, mirroring the statement order of the source: header match and
context reset, brace counting, pending fields-brace, depth update, fields
block entry, field match, value match, fields block exit, scope close. -/
def stepCore (fp : String) (s : ScanState) (w : List Char) : ScanState :=
  let lineNumber := s.lineNo + 1
  let cleaned := stripComments w
  let newML := hasUnclosedMultiLineComment w
  let ctx1 := headerCtx fp s lineNumber cleaned
  let current1 := ctx1.1
  let finished1 := ctx1.2.1
  let braceDepth1 := ctx1.2.2.1
  let inFields1 := ctx1.2.2.2.1
  let expecting1 := ctx1.2.2.2.2
  let openB := countChar '\x7b' cleaned
  let closeB := countChar '\x7d' cleaned
  let net : Int := (openB : Int) - (closeB : Int)
  let ctx2 : Bool × Int × Bool :=
    if expecting1 ∧ openB > 0 then (true, braceDepth1 + 1, false)
    else (inFields1, (s.fieldsBlockDepth : Int), expecting1)
  let inFields2 := ctx2.1
  let fbDepth2 := ctx2.2.1
  let expecting2 := ctx2.2.2
  let braceDepth2 := braceDepth1 + net
  let ctx3 : Bool × Int × Bool :=
    match current1 with
    | some c =>
      if isTableKind c.type ∧ ¬inFields2 then
        if scanBoundary fieldsBraceAt none cleaned then (true, braceDepth2, expecting2)
        else if scanBoundary fieldsEndAt none cleaned then (inFields2, fbDepth2, true)
        else (inFields2, fbDepth2, expecting2)
      else (inFields2, fbDepth2, expecting2)
    | none => (inFields2, fbDepth2, expecting2)
  let inFields3 := ctx3.1
  let fbDepth3 := ctx3.2.1
  let expecting3 := ctx3.2.2
  let current2 := applyField cleaned lineNumber fp inFields3 current1
  let current3 := applyValue cleaned lineNumber fp braceDepth2 current2
  let inFields4 := if inFields3 ∧ braceDepth2 < fbDepth3 then false else inFields3
  let closing := current3.isSome ∧ braceDepth2 ≤ 0 ∧ closeB > 0
  { inMultiLineComment := newML,
    current := if closing then none else current3,
    braceDepth := if closing then 0 else braceDepth2,
    inFieldsBlock := if closing then false else inFields4,
    fieldsBlockDepth := fbDepth3.toNat,
    expectingFieldsBlockBrace := if closing then false else expecting3,
    finished := if closing then finished1 ++ current3.toList else finished1,
    lineNo := lineNumber }

/-- One line of the scan: a line wholly inside a block comment only advances
the line counter, any other line runs the loop body on its effective part. -/
def stepFn (fp : String) (s : ScanState) (line : String) : ScanState :=
  match effectiveLine s line with
  | none => { s with lineNo := s.lineNo + 1 }
  | some w => stepCore fp s w

/-- Embedding of parseContent on a pre-split line list: fold the per-line
step and read off the pushed objects (creation order: finished objects then
the still-open one). -/
def parseLines (fp : String) (lines : List String) : List ALObjectWithFields :=
  let final := lines.foldl (stepFn fp) initState
  final.finished ++ final.current.toList

/-- Line splitting on CRLF or LF, as content.split of the source. -/
def splitRNAux : List Char → List Char → List (List Char)
  | [], acc => [acc.reverse]
  | '\r' :: '\n' :: rest, acc => acc.reverse :: splitRNAux rest []
  | '\n' :: rest, acc => acc.reverse :: splitRNAux rest []
  | c :: rest, acc => splitRNAux rest (c :: acc)

/-- Embedding of parseContent (lines 55-213). -/
def parseContent (content : String) (fp : String) : List ALObjectWithFields :=
  parseLines fp ((splitRNAux content.data []).map String.mk)

/-- Scanner state before the 1-based line j of the unit. -/
def stateBefore (fp : String) (lines : List String) (j : Nat) : ScanState :=
  (lines.take (j - 1)).foldl (stepFn fp) initState

/-- The header line of the declaration that is current in the middle of
processing a line, after the header match of the line itself. -/
def midCurrentHeader (s : ScanState) (line : String) : Option Nat :=
  match effectiveLine s line with
  | none => s.current.map ALObjectWithFields.lineNumber
  | some w =>
    if (matchHeader (stripComments w)).isSome then some (s.lineNo + 1)
    else s.current.map ALObjectWithFields.lineNumber

/-- Line j closes the scope of the declaration whose header is line k: the
declaration is the one being tracked while processing line j and the close
branch of the loop fires, leaving no current declaration. -/
def closesAtB (fp : String) (lines : List String) (j k : Nat) : Bool :=
  if 1 ≤ j ∧ j ≤ lines.length then
    (midCurrentHeader (stateBefore fp lines j) (lines.getD (j - 1) "")
        == some k) &&
      ((stepFn fp (stateBefore fp lines j) (lines.getD (j - 1) "")).current
        == none)
  else false

/-- Header lines of the declarations a scanner state would emit: the pushed
objects followed by the still-open one, in creation order. -/
def headersOf (s : ScanState) : List Nat :=
  (s.finished ++ s.current.toList).map ALObjectWithFields.lineNumber

/-- How the multi-line comment flag evolves over one line, as a function of
the flag alone: a skipped line keeps it, otherwise the effective part of the
line decides it. -/
def inMLAfter (b : Bool) (line : String) : Bool :=
  if b then
    match idxOf2 '*' '/' line.data with
    | none => true
    | some k => hasUnclosedMultiLineComment (line.data.drop (k + 2))
  else hasUnclosedMultiLineComment line.data

/-- Whether a line produces a header event, as a function of the multi-line
comment flag alone. -/
def headerEv (b : Bool) (line : String) : Bool :=
  if b then
    match idxOf2 '*' '/' line.data with
    | none => false
    | some k => (matchHeader (stripComments (line.data.drop (k + 2)))).isSome
  else (matchHeader (stripComments line.data)).isSome

/-- The (kind, id) group of a project collection: every object of every
project carrying the given kind and id, in traversal order. -/
def objGroup (ps : List ALProject) (t : ALObjectType) (i : Nat) : List ALObject :=
  (ps.flatMap ALProject.objects).filter (fun o => o.type = t ∧ o.id = i)

/-- The (extendsName, field id) occurrence group of a project collection. -/
def fieldOccsOf (ps : List ALProjectWithFields) (base : String) (fid : Nat) :
    List FieldOccurrence :=
  ((fieldOccStream ps).filter (fun kv => kv.1 = (base, fid))).map Prod.snd

/-- Specification predicate for C4: g is a maximal run of consecutive
identifiers inside [lo, hi] that are all outside the used set — free
throughout, bounded by used identifiers or by the range ends. -/
def IsMaximalFreeRun (used : Nat → Bool) (lo hi : Nat) (g : Gap) : Prop :=
  lo ≤ g.start ∧ g.start ≤ g.stop ∧ g.stop ≤ hi ∧
  (∀ i, g.start ≤ i → i ≤ g.stop → used i = false) ∧
  (g.start = lo ∨ used (g.start - 1) = true) ∧
  (g.stop = hi ∨ used (g.stop + 1) = true)

/-- Bounds invariant of C3 for one declaration after n scanned lines: the
header is within the unit so far and every attached field or value lies
strictly after the header and within the scanned lines. -/
def DeclBounds (n : Nat) (d : ALObjectWithFields) : Prop :=
  1 ≤ d.lineNumber ∧ d.lineNumber ≤ n ∧
  (∀ f ∈ d.fields.getD [], d.lineNumber < f.lineNumber ∧ f.lineNumber ≤ n) ∧
  (∀ v ∈ d.enumValues.getD [], d.lineNumber < v.lineNumber ∧ v.lineNumber ≤ n)

/-- Close-line invariant of C3 for one declaration: any line among the first
n that closes the declaration's scope bounds its fields by the close line
and its values strictly by it. -/
def ClosedOK (fp : String) (lines : List String) (n : Nat)
    (d : ALObjectWithFields) : Prop :=
  ∀ j, j ≤ n → closesAtB fp lines j d.lineNumber = true →
    (∀ f ∈ d.fields.getD [], f.lineNumber ≤ j) ∧
    (∀ v ∈ d.enumValues.getD [], v.lineNumber < j)

/-- The scan invariant of C3 after n lines: the line counter, the per
declaration bounds, the close-line property of pushed declarations, and
that the still-open declaration has not been closed by any scanned line. -/
def InvC3 (fp : String) (lines : List String) (n : Nat) : Prop :=
  ((lines.take n).foldl (stepFn fp) initState).lineNo = n ∧
  (∀ d ∈ ((lines.take n).foldl (stepFn fp) initState).finished ++
      ((lines.take n).foldl (stepFn fp) initState).current.toList,
    DeclBounds n d) ∧
  (∀ d ∈ ((lines.take n).foldl (stepFn fp) initState).finished,
    ClosedOK fp lines n d) ∧
  (∀ c, ((lines.take n).foldl (stepFn fp) initState).current = some c →
    ∀ j, j ≤ n → closesAtB fp lines j c.lineNumber = false)

/-! ### Theorems -/

theorem scanIds_char (used : Nat → Bool) (hi : Nat) :
    ∀ n a, a + n = hi + 1 →
      (∀ g : Gap, g ∈ scanIds used hi (List.range' a n) none ↔
        (IsMaximalFreeRun used a hi g ∧ g.count = g.stop + 1 - g.start)) ∧
      (∀ gs, gs < a → ∀ g : Gap,
        g ∈ scanIds used hi (List.range' a n) (some gs) ↔
        ((g.start = gs ∧ a ≤ g.stop + 1 ∧ g.stop ≤ hi ∧
          (∀ i, a ≤ i → i ≤ g.stop → used i = false) ∧
          (g.stop = hi ∨ used (g.stop + 1) = true) ∧
          g.count = g.stop + 1 - gs)
         ∨ (a < g.start ∧ g.start ≤ g.stop ∧ g.stop ≤ hi ∧
            (∀ i, g.start ≤ i → i ≤ g.stop → used i = false) ∧
            used (g.start - 1) = true ∧
            (g.stop = hi ∨ used (g.stop + 1) = true) ∧
            g.count = g.stop + 1 - g.start))) := by
  intro n
  induction n with
  | zero =>
    intro a han
    constructor
    · intro g
      simp only [List.range'_zero, scanIds, List.not_mem_nil, false_iff]
      rintro ⟨⟨h1, h2, h3, -, -, -⟩, -⟩
      omega
    · intro gs hgs g
      simp only [List.range'_zero, scanIds, List.mem_singleton]
      constructor
      · rintro rfl
        refine Or.inl ⟨rfl, ?_, ?_, ?_, Or.inl rfl, ?_⟩
        · show a ≤ hi + 1
          omega
        · show hi ≤ hi
          omega
        · intro i hi1 hi2
          have hi2' : i ≤ hi := hi2
          omega
        · show hi - gs + 1 = hi + 1 - gs
          omega
      · rintro (⟨h1, h2, h3, h4, h5, h6⟩ | ⟨h1, h2, h3, h4, h5, h6, h7⟩)
        · cases g with
          | mk s e c =>
            have h1' : s = gs := h1
            have h2' : a ≤ e + 1 := h2
            have h3' : e ≤ hi := h3
            have h6' : c = e + 1 - gs := h6
            simp only [Gap.mk.injEq]
            refine ⟨h1', by omega, by omega⟩
        · omega
  | succ n ih =>
    intro a han
    obtain ⟨ihnone, ihsome⟩ := ih (a + 1) (by omega)
    have hahi : a ≤ hi := by omega
    rw [List.range'_succ]
    constructor
    · intro g
      cases hu : used a with
      | true =>
        simp only [scanIds, hu, if_true]
        rw [ihnone g]
        unfold IsMaximalFreeRun
        constructor
        · rintro ⟨⟨h1, h2, h3, h4, h5, h6⟩, h7⟩
          refine ⟨⟨by omega, h2, h3, h4, Or.inr ?_, h6⟩, h7⟩
          rcases h5 with h5 | h5
          · rw [h5]; simpa using hu
          · exact h5
        · rintro ⟨⟨h1, h2, h3, h4, h5, h6⟩, h7⟩
          have hne : g.start ≠ a := by
            intro hEq
            have hfa := h4 a (by omega) (by omega)
            rw [hfa] at hu
            cases hu
          refine ⟨⟨by omega, h2, h3, h4, Or.inr ?_, h6⟩, h7⟩
          rcases h5 with h5 | h5
          · exact absurd h5 hne
          · exact h5
      | false =>
        simp only [scanIds, hu, Bool.false_eq_true, if_false]
        rw [ihsome a (by omega) g]
        unfold IsMaximalFreeRun
        constructor
        · rintro (⟨h1, h2, h3, h4, h5, h6⟩ | ⟨h1, h2, h3, h4, h5, h6, h7⟩)
          · refine ⟨⟨by omega, by omega, h3, ?_, Or.inl h1, h5⟩, by omega⟩
            intro i hi1 hi2
            rcases Nat.lt_or_ge i (a + 1) with h | h
            · have hia : i = a := by omega
              rw [hia]; exact hu
            · exact h4 i h hi2
          · exact ⟨⟨by omega, h2, h3, h4, Or.inr h5, h6⟩, h7⟩
        · rintro ⟨⟨h1, h2, h3, h4, h5, h6⟩, h7⟩
          by_cases hsa : g.start = a
          · refine Or.inl ⟨hsa, by omega, h3, ?_, h6, by omega⟩
            intro i hi1 hi2
            exact h4 i (by omega) hi2
          · have h5' : used (g.start - 1) = true := by
              rcases h5 with h5 | h5
              · exact absurd h5 hsa
              · exact h5
            have hgt : a + 1 < g.start := by
              rcases Nat.lt_or_ge (a + 1) g.start with h | h
              · exact h
              · have hEq : g.start = a + 1 := by omega
                rw [hEq] at h5'
                simp only [Nat.add_sub_cancel] at h5'
                rw [h5'] at hu
                cases hu
            exact Or.inr ⟨hgt, h2, h3, h4, h5', h6, h7⟩
    · intro gs hgs g
      cases hu : used a with
      | false =>
        simp only [scanIds, hu, Bool.false_eq_true, if_false]
        rw [ihsome gs (by omega) g]
        constructor
        · rintro (⟨h1, h2, h3, h4, h5, h6⟩ | ⟨h1, h2, h3, h4, h5, h6, h7⟩)
          · refine Or.inl ⟨h1, by omega, h3, ?_, h5, h6⟩
            intro i hi1 hi2
            rcases Nat.lt_or_ge i (a + 1) with h | h
            · have hia : i = a := by omega
              rw [hia]; exact hu
            · exact h4 i h hi2
          · exact Or.inr ⟨by omega, h2, h3, h4, h5, h6, h7⟩
        · rintro (⟨h1, h2, h3, h4, h5, h6⟩ | ⟨h1, h2, h3, h4, h5, h6, h7⟩)
          · have hstop : a ≤ g.stop := by
              by_contra hc
              push_neg at hc
              have hsa : g.stop + 1 = a := by omega
              rcases h5 with h5 | h5
              · omega
              · rw [hsa] at h5
                rw [h5] at hu
                cases hu
            refine Or.inl ⟨h1, by omega, h3, ?_, h5, h6⟩
            intro i hi1 hi2
            exact h4 i (by omega) hi2
          · have hgt : a + 1 < g.start := by
              rcases Nat.lt_or_ge (a + 1) g.start with h | h
              · exact h
              · have hEq : g.start = a + 1 := by omega
                rw [hEq] at h5
                simp only [Nat.add_sub_cancel] at h5
                rw [h5] at hu
                cases hu
            exact Or.inr ⟨hgt, h2, h3, h4, h5, h6, h7⟩
      | true =>
        simp only [scanIds, hu, if_true]
        rw [List.mem_cons, ihnone g]
        unfold IsMaximalFreeRun
        constructor
        · rintro (rfl | ⟨⟨h1, h2, h3, h4, h5, h6⟩, h7⟩)
          · refine Or.inl ⟨rfl, ?_, ?_, ?_, Or.inr ?_, ?_⟩
            · show a ≤ a - 1 + 1
              omega
            · show a - 1 ≤ hi
              omega
            · intro i hi1 hi2
              simp only at hi2
              omega
            · show used (a - 1 + 1) = true
              have hx : a - 1 + 1 = a := by omega
              rw [hx]; exact hu
            · show a - gs = a - 1 + 1 - gs
              omega
          · refine Or.inr ⟨by omega, h2, h3, h4, ?_, h6, h7⟩
            rcases h5 with h5 | h5
            · rw [h5]; simpa using hu
            · exact h5
        · rintro (⟨h1, h2, h3, h4, h5, h6⟩ | ⟨h1, h2, h3, h4, h5, h6, h7⟩)
          · left
            have hstop : g.stop = a - 1 := by
              by_contra hc
              have hge : a ≤ g.stop := by omega
              have hfa := h4 a (le_refl a) hge
              rw [hfa] at hu
              cases hu
            cases g with
            | mk s e c =>
              have h1' : s = gs := h1
              have hstop' : e = a - 1 := hstop
              have h6' : c = e + 1 - gs := h6
              simp only [Gap.mk.injEq]
              refine ⟨h1', hstop', by omega⟩
          · right
            exact ⟨⟨by omega, h2, h3, h4, Or.inr h5, h6⟩, h7⟩

theorem mem_rangeGaps_iff (used : Nat → Bool) (r : IdRange) (g : Gap) :
    g ∈ rangeGaps used r ↔
      (IsMaximalFreeRun used r.from_ r.to_ g ∧ g.count = g.stop + 1 - g.start) := by
  unfold rangeGaps
  by_cases h : r.from_ ≤ r.to_ + 1
  · exact (scanIds_char used r.to_ (r.to_ + 1 - r.from_) r.from_ (by omega)).1 g
  · have hn : r.to_ + 1 - r.from_ = 0 := by omega
    rw [hn]
    simp only [List.range'_zero, scanIds, List.not_mem_nil, false_iff]
    rintro ⟨⟨h1, h2, h3, -, -, -⟩, -⟩
    omega

theorem scanIds_pairwise (used : Nat → Bool) (hi : Nat) :
    ∀ n a, a + n = hi + 1 →
      (scanIds used hi (List.range' a n) none).Pairwise
        (fun g₁ g₂ => g₁.stop < g₂.start) ∧
      (∀ gs, gs < a → (scanIds used hi (List.range' a n) (some gs)).Pairwise
        (fun g₁ g₂ => g₁.stop < g₂.start)) := by
  intro n
  induction n with
  | zero =>
    intro a han
    simp only [List.range'_zero, scanIds]
    exact ⟨List.Pairwise.nil, fun gs hgs => List.pairwise_singleton _ _⟩
  | succ n ih =>
    intro a han
    obtain ⟨ihnone, ihsome⟩ := ih (a + 1) (by omega)
    rw [List.range'_succ]
    constructor
    · cases hu : used a with
      | true => simpa only [scanIds, hu, if_true] using ihnone
      | false =>
        simp only [scanIds, hu, Bool.false_eq_true, if_false]
        exact ihsome a (by omega)
    · intro gs hgs
      cases hu : used a with
      | true =>
        simp only [scanIds, hu, if_true]
        refine List.Pairwise.cons ?_ ihnone
        intro g hg
        have hchar := ((scanIds_char used hi n (a + 1) (by omega)).1 g).mp hg
        have hstart : a + 1 ≤ g.start := hchar.1.1
        show (Gap.mk gs (a - 1) (a - gs)).stop < g.start
        have : (Gap.mk gs (a - 1) (a - gs)).stop = a - 1 := rfl
        omega
      | false =>
        simp only [scanIds, hu, Bool.false_eq_true, if_false]
        exact ihsome gs (by omega)

theorem foldl_append_eq_flatMap {α β : Type} (f : α → List β) :
    ∀ (l : List α) (init : List β),
      l.foldl (fun acc r => acc ++ f r) init = init ++ l.flatMap f := by
  intro l
  induction l with
  | nil => intro init; simp
  | cons x rest ih =>
    intro init
    simp only [List.foldl_cons, List.flatMap_cons, ih, List.append_assoc]

theorem calculateGaps_eq_flatMap (p : ALProject) :
    calculateGaps p = p.idRanges.flatMap (rangeGaps (usedIdsOf p)) := by
  by_cases h : p.idRanges = []
  · simp [calculateGaps, h]
  · simp only [calculateGaps, if_neg h]
    rw [foldl_append_eq_flatMap]
    simp

theorem calculateSharedGaps_eq_flatMap (ps : List ALProject) (t : ALObjectType) :
    calculateSharedGaps ps t = (getSharedRanges ps).flatMap
      (fun r => (rangeGaps (usedOfType ps t) r).map
        (fun g => ⟨g.start, g.stop, g.count, t⟩)) := by
  by_cases h : getSharedRanges ps = []
  · simp [calculateSharedGaps, h]
  · simp only [calculateSharedGaps, if_neg h]
    rw [foldl_append_eq_flatMap]
    simp

/-- C4: the gap calculator processes each range independently in input order
(the output is the concatenation of the per-range gap lists); per range, a
gap is produced exactly for each maximal run of consecutive identifiers in
from..to that are outside the used set, with count equal to its width; the
per-range gaps come in strictly increasing position order; and the concrete
range 50000..50010 with used ids 50002, 50005 and 50008 yields exactly the
four two-wide gaps of the specification. -/
theorem claim_C4 :
    (∀ p, calculateGaps p = p.idRanges.flatMap (rangeGaps (usedIdsOf p))) ∧
    (∀ (used : Nat → Bool) (r : IdRange) (g : Gap), g ∈ rangeGaps used r ↔
      (IsMaximalFreeRun used r.from_ r.to_ g ∧ g.count = g.stop + 1 - g.start)) ∧
    (∀ (used : Nat → Bool) (r : IdRange),
      (rangeGaps used r).Pairwise (fun g₁ g₂ => g₁.stop < g₂.start)) ∧
    calculateGaps
      ⟨"P", "/p", [⟨50000, 50010⟩],
        [⟨ALObjectType.table, 50002, "a", 1, "/p/a.al"⟩,
         ⟨ALObjectType.table, 50005, "b", 1, "/p/b.al"⟩,
         ⟨ALObjectType.table, 50008, "c", 1, "/p/c.al"⟩]⟩ =
      [⟨50000, 50001, 2⟩, ⟨50003, 50004, 2⟩, ⟨50006, 50007, 2⟩,
       ⟨50009, 50010, 2⟩] := by
  refine ⟨calculateGaps_eq_flatMap, mem_rangeGaps_iff, ?_, by decide⟩
  intro used r
  unfold rangeGaps
  by_cases h : r.from_ ≤ r.to_ + 1
  · exact (scanIds_pairwise used r.to_ (r.to_ + 1 - r.from_) r.from_ (by omega)).1
  · have hn : r.to_ + 1 - r.from_ = 0 := by omega
    rw [hn]
    simp only [List.range'_zero, scanIds]
    exact List.Pairwise.nil

/-- C9: the per-project gap calculator pools used identifiers across all 13
kinds, so an identifier inside a per-project gap is used by no object of any
kind; the shared-mode calculator restricts the used set to the queried kind,
so an identifier inside a shared gap is only guaranteed unused among objects
of that kind; concretely, a project with one table 50001 in range
50000..50002 has per-project gaps avoiding 50001, while shared mode queried
for pages leaves the whole range free. -/
theorem claim_C9 :
    (∀ p (g : Gap) (n : Nat), g ∈ calculateGaps p → g.start ≤ n → n ≤ g.stop →
      ∀ o ∈ p.objects, o.id ≠ n) ∧
    (∀ ps t (g : SharedIdGap) (n : Nat), g ∈ calculateSharedGaps ps t →
      g.start ≤ n → n ≤ g.stop →
      ∀ p ∈ ps, ∀ o ∈ p.objects, o.type = t → o.id ≠ n) ∧
    calculateGaps ⟨"P", "/p", [⟨50000, 50002⟩],
      [⟨ALObjectType.table, 50001, "t", 1, "/p/t.al"⟩]⟩ =
      [⟨50000, 50000, 1⟩, ⟨50002, 50002, 1⟩] ∧
    calculateSharedGaps [⟨"P", "/p", [⟨50000, 50002⟩],
      [⟨ALObjectType.table, 50001, "t", 1, "/p/t.al"⟩]⟩] ALObjectType.page =
      [⟨50000, 50002, 3, ALObjectType.page⟩] := by
  refine ⟨?_, ?_, by decide, by decide⟩
  · intro p g n hg h1 h2 o ho heq
    rw [calculateGaps_eq_flatMap, List.mem_flatMap] at hg
    obtain ⟨r, -, hgr⟩ := hg
    have hchar := (mem_rangeGaps_iff (usedIdsOf p) r g).mp hgr
    have hfree := hchar.1.2.2.2.1 n h1 h2
    unfold usedIdsOf at hfree
    rw [decide_eq_false_iff_not] at hfree
    exact hfree (List.mem_map.mpr ⟨o, ho, heq⟩)
  · intro ps t g n hg h1 h2 p hp o ho htype heq
    rw [calculateSharedGaps_eq_flatMap, List.mem_flatMap] at hg
    obtain ⟨r, -, hgr⟩ := hg
    rw [List.mem_map] at hgr
    obtain ⟨g0, hg0, rfl⟩ := hgr
    have hchar := (mem_rangeGaps_iff (usedOfType ps t) r g0).mp hg0
    have hfree := hchar.1.2.2.2.1 n h1 h2
    unfold usedOfType at hfree
    rw [decide_eq_false_iff_not] at hfree
    refine hfree (List.mem_flatMap.mpr ⟨p, hp, ?_⟩)
    exact List.mem_map.mpr ⟨o, List.mem_filter.mpr ⟨ho, by simp [htype]⟩, heq⟩

/-- Witness for C9 at a concrete input: the gap starting at 50000 is in the
project's gap list, and the table object with id 50001 indeed differs from
the in-gap identifier 50000. -/
theorem claim_C9_witness :
    (⟨50000, 50000, 1⟩ : Gap) ∈ calculateGaps
      ⟨"P", "/p", [⟨50000, 50002⟩],
        [⟨ALObjectType.table, 50001, "t", 1, "/p/t.al"⟩]⟩ ∧
    (50001 : Nat) ≠ 50000 :=
  ⟨by decide,
   claim_C9.1 ⟨"P", "/p", [⟨50000, 50002⟩],
      [⟨ALObjectType.table, 50001, "t", 1, "/p/t.al"⟩]⟩
    ⟨50000, 50000, 1⟩ 50000 (by decide) (by decide) (by decide)
    ⟨ALObjectType.table, 50001, "t", 1, "/p/t.al"⟩ (by decide)⟩

theorem mem_insertSorted {α : Type} (le : α → α → Bool) (x : α) :
    ∀ (l : List α) (a : α), a ∈ insertSorted le x l ↔ a = x ∨ a ∈ l := by
  intro l
  induction l with
  | nil => intro a; simp [insertSorted]
  | cons y ys ih =>
    intro a
    unfold insertSorted
    split
    · rw [List.mem_cons, ih a, List.mem_cons]
      tauto
    · rw [List.mem_cons]

theorem insertSorted_perm {α : Type} (le : α → α → Bool) (x : α) :
    ∀ l : List α, (insertSorted le x l).Perm (x :: l) := by
  intro l
  induction l with
  | nil => exact List.Perm.refl _
  | cons y ys ih =>
    unfold insertSorted
    split
    · exact (List.Perm.cons y ih).trans (List.Perm.swap x y ys)
    · exact List.Perm.refl _

theorem stableSort_perm {α : Type} (le : α → α → Bool) (l : List α) :
    (stableSort le l).Perm l := by
  suffices h : ∀ (l acc : List α),
      (l.foldl (fun acc x => insertSorted le x acc) acc).Perm (acc ++ l) by
    simpa [stableSort] using h l []
  intro l
  induction l with
  | nil => intro acc; simp
  | cons x xs ih =>
    intro acc
    refine (ih (insertSorted le x acc)).trans ?_
    exact ((insertSorted_perm le x acc).append_right xs).trans List.perm_middle.symm

theorem insertSorted_pairwise {α : Type} (le : α → α → Bool)
    (htrans : ∀ a b c, le a b = true → le b c = true → le a c = true)
    (htotal : ∀ a b, le a b = true ∨ le b a = true) (x : α) :
    ∀ l : List α, l.Pairwise (fun a b => le a b = true) →
      (insertSorted le x l).Pairwise (fun a b => le a b = true) := by
  intro l
  induction l with
  | nil => intro _; simp [insertSorted]
  | cons y ys ih =>
    intro hp
    obtain ⟨hy, hys⟩ := List.pairwise_cons.mp hp
    unfold insertSorted
    split
    · rename_i hle
      refine List.pairwise_cons.mpr ⟨?_, ih hys⟩
      intro z hz
      rcases (mem_insertSorted le x ys z).mp hz with rfl | hz
      · exact hle
      · exact hy z hz
    · rename_i hle
      have hxy : le x y = true := by
        rcases htotal x y with h | h
        · exact h
        · exact absurd h hle
      refine List.pairwise_cons.mpr ⟨?_, hp⟩
      intro z hz
      rcases List.mem_cons.mp hz with rfl | hz
      · exact hxy
      · exact htrans x y z hxy (hy z hz)

theorem stableSort_pairwise {α : Type} (le : α → α → Bool)
    (htrans : ∀ a b c, le a b = true → le b c = true → le a c = true)
    (htotal : ∀ a b, le a b = true ∨ le b a = true) (l : List α) :
    (stableSort le l).Pairwise (fun a b => le a b = true) := by
  suffices h : ∀ (l acc : List α), acc.Pairwise (fun a b => le a b = true) →
      (l.foldl (fun acc x => insertSorted le x acc) acc).Pairwise
        (fun a b => le a b = true) by
    exact h l [] List.Pairwise.nil
  intro l
  induction l with
  | nil => intro acc h; simpa using h
  | cons x xs ih =>
    intro acc h
    exact ih _ (insertSorted_pairwise le htrans htotal x acc h)

theorem mergeFold_props :
    ∀ (rem acc : List IdRange),
      acc ≠ [] →
      acc.Pairwise (fun a b => b.to_ + 1 < a.from_) →
      (∀ r ∈ rem, (acc.headD ⟨0, 0⟩).from_ ≤ r.from_) →
      rem.Pairwise (fun a b => a.from_ ≤ b.from_) →
      (rem.foldl mergeStep acc ≠ [] ∧
       (rem.foldl mergeStep acc).Pairwise (fun a b => b.to_ + 1 < a.from_) ∧
       (∀ x, (∃ r ∈ rem.foldl mergeStep acc, r.from_ ≤ x ∧ x ≤ r.to_) ↔
         ((∃ r ∈ acc, r.from_ ≤ x ∧ x ≤ r.to_) ∨
          (∃ r ∈ rem, r.from_ ≤ x ∧ x ≤ r.to_)))) := by
  intro rem
  induction rem with
  | nil =>
    intro acc h1 h2 h3 h4
    refine ⟨h1, h2, fun x => ?_⟩
    simp
  | cons cur rest ih =>
    rintro (_ | ⟨last, accRest⟩) hne hpw hhead hsorted
    · exact absurd rfl hne
    obtain ⟨hsortedHead, hsortedRest⟩ := List.pairwise_cons.mp hsorted
    obtain ⟨hpwHead, hpwRest⟩ := List.pairwise_cons.mp hpw
    have hcurFrom : last.from_ ≤ cur.from_ := hhead cur (List.mem_cons_self cur rest)
    simp only [List.foldl_cons]
    by_cases hmerge : cur.from_ ≤ last.to_ + 1
    · have hstep : mergeStep (last :: accRest) cur =
          ⟨last.from_, max last.to_ cur.to_⟩ :: accRest := by
        simp [mergeStep, hmerge]
      rw [hstep]
      have hpw' : (IdRange.mk last.from_ (max last.to_ cur.to_) :: accRest).Pairwise
          (fun a b => b.to_ + 1 < a.from_) := by
        refine List.pairwise_cons.mpr ⟨?_, hpwRest⟩
        intro q hq
        exact hpwHead q hq
      have hhead' : ∀ r ∈ rest,
          ((IdRange.mk last.from_ (max last.to_ cur.to_) :: accRest).headD
            ⟨0, 0⟩).from_ ≤ r.from_ := by
        intro r hr
        have h1 := hhead r (List.mem_cons_of_mem cur hr)
        simpa using h1
      obtain ⟨ihne, ihpw, ihcov⟩ := ih _ (by simp) hpw' hhead' hsortedRest
      refine ⟨ihne, ihpw, fun x => ?_⟩
      rw [ihcov x]
      have hcov : (last.from_ ≤ x ∧ x ≤ max last.to_ cur.to_) ↔
          ((last.from_ ≤ x ∧ x ≤ last.to_) ∨ (cur.from_ ≤ x ∧ x ≤ cur.to_)) := by
        omega
      constructor
      · rintro (⟨r, hr, hx⟩ | ⟨r, hr, hx⟩)
        · rcases List.mem_cons.mp hr with rfl | hr
          · rcases hcov.mp hx with h | h
            · exact Or.inl ⟨last, List.mem_cons_self _ _, h⟩
            · exact Or.inr ⟨cur, List.mem_cons_self _ _, h⟩
          · exact Or.inl ⟨r, List.mem_cons_of_mem _ hr, hx⟩
        · exact Or.inr ⟨r, List.mem_cons_of_mem _ hr, hx⟩
      · rintro (⟨r, hr, hx⟩ | ⟨r, hr, hx⟩)
        · rcases List.mem_cons.mp hr with rfl | hr
          · exact Or.inl ⟨IdRange.mk r.from_ (max r.to_ cur.to_),
              List.mem_cons_self _ _, hcov.mpr (Or.inl hx)⟩
          · exact Or.inl ⟨r, List.mem_cons_of_mem _ hr, hx⟩
        · rcases List.mem_cons.mp hr with rfl | hr
          · exact Or.inl ⟨IdRange.mk last.from_ (max last.to_ r.to_),
              List.mem_cons_self _ _, hcov.mpr (Or.inr hx)⟩
          · exact Or.inr ⟨r, hr, hx⟩
    · have hstep : mergeStep (last :: accRest) cur = cur :: last :: accRest := by
        simp [mergeStep, hmerge]
      rw [hstep]
      have hpw' : (cur :: last :: accRest).Pairwise
          (fun a b => b.to_ + 1 < a.from_) := by
        refine List.pairwise_cons.mpr ⟨?_, hpw⟩
        intro q hq
        rcases List.mem_cons.mp hq with rfl | hq
        · omega
        · have := hpwHead q hq
          omega
      have hhead' : ∀ r ∈ rest,
          ((cur :: last :: accRest).headD ⟨0, 0⟩).from_ ≤ r.from_ := by
        intro r hr
        simpa using hsortedHead r hr
      obtain ⟨ihne, ihpw, ihcov⟩ := ih _ (by simp) hpw' hhead' hsortedRest
      refine ⟨ihne, ihpw, fun x => ?_⟩
      rw [ihcov x]
      constructor
      · rintro (⟨r, hr, hx⟩ | ⟨r, hr, hx⟩)
        · rcases List.mem_cons.mp hr with rfl | hr
          · exact Or.inr ⟨r, List.mem_cons_self _ _, hx⟩
          · exact Or.inl ⟨r, hr, hx⟩
        · exact Or.inr ⟨r, List.mem_cons_of_mem _ hr, hx⟩
      · rintro (⟨r, hr, hx⟩ | ⟨r, hr, hx⟩)
        · exact Or.inl ⟨r, List.mem_cons_of_mem _ hr, hx⟩
        · rcases List.mem_cons.mp hr with rfl | hr
          · exact Or.inl ⟨r, List.mem_cons_self _ _, hx⟩
          · exact Or.inr ⟨r, hr, hx⟩

/-- C5: the range merger folds the by-from-sorted ranges merging overlapping
or adjacent ones; the output is sorted with a strict gap between consecutive
ranges (hence pairwise disjoint and non-adjacent), covers exactly the union
of the input ranges, empty input gives empty output, and the three concrete
specification examples (overlap, adjacency, separation) evaluate as stated. -/
theorem claim_C5 :
    (∀ ps : List ALProject, ps.flatMap ALProject.idRanges = [] →
      getSharedRanges ps = []) ∧
    (∀ ps : List ALProject,
      (getSharedRanges ps).Pairwise (fun a b => a.to_ + 1 < b.from_)) ∧
    (∀ (ps : List ALProject) (x : Nat),
      (∃ r ∈ getSharedRanges ps, r.from_ ≤ x ∧ x ≤ r.to_) ↔
      (∃ r ∈ ps.flatMap ALProject.idRanges, r.from_ ≤ x ∧ x ≤ r.to_)) ∧
    getSharedRanges [⟨"A", "/a", [⟨50000, 50050⟩], []⟩,
      ⟨"B", "/b", [⟨50025, 50099⟩], []⟩] = [⟨50000, 50099⟩] ∧
    getSharedRanges [⟨"A", "/a", [⟨50000, 50049⟩], []⟩,
      ⟨"B", "/b", [⟨50050, 50099⟩], []⟩] = [⟨50000, 50099⟩] ∧
    getSharedRanges [⟨"A", "/a", [⟨50000, 50049⟩], []⟩,
      ⟨"B", "/b", [⟨50100, 50149⟩], []⟩] = [⟨50000, 50049⟩, ⟨50100, 50149⟩] := by
  have htrans : ∀ a b c : IdRange, decide (a.from_ ≤ b.from_) = true →
      decide (b.from_ ≤ c.from_) = true → decide (a.from_ ≤ c.from_) = true := by
    intro a b c h1 h2
    rw [decide_eq_true_iff] at h1 h2 ⊢
    omega
  have htotal : ∀ a b : IdRange, decide (a.from_ ≤ b.from_) = true ∨
      decide (b.from_ ≤ a.from_) = true := by
    intro a b
    rcases Nat.le_total a.from_ b.from_ with h | h
    · exact Or.inl (decide_eq_true h)
    · exact Or.inr (decide_eq_true h)
  have hmain : ∀ ps : List ALProject,
      (getSharedRanges ps).Pairwise (fun a b => a.to_ + 1 < b.from_) ∧
      (∀ x : Nat, (∃ r ∈ getSharedRanges ps, r.from_ ≤ x ∧ x ≤ r.to_) ↔
        (∃ r ∈ ps.flatMap ALProject.idRanges, r.from_ ≤ x ∧ x ≤ r.to_)) := by
    intro ps
    have hperm := stableSort_perm (fun a b : IdRange => decide (a.from_ ≤ b.from_))
      (ps.flatMap ALProject.idRanges)
    cases hs : stableSort (fun a b : IdRange => decide (a.from_ ≤ b.from_))
        (ps.flatMap ALProject.idRanges) with
    | nil =>
      rw [hs] at hperm
      have hall : ps.flatMap ALProject.idRanges = [] := hperm.symm.eq_nil
      have hres : getSharedRanges ps = [] := by
        unfold getSharedRanges
        rw [hs]
      rw [hres, hall]
      exact ⟨List.Pairwise.nil, fun x => by simp⟩
    | cons first rest =>
      rw [hs] at hperm
      have hsorted := stableSort_pairwise
        (fun a b : IdRange => decide (a.from_ ≤ b.from_)) htrans htotal
        (ps.flatMap ALProject.idRanges)
      rw [hs] at hsorted
      have hsorted' : (first :: rest).Pairwise (fun a b : IdRange =>
          a.from_ ≤ b.from_) := by
        refine hsorted.imp ?_
        intro a b h
        exact decide_eq_true_iff.mp h
      obtain ⟨hsHead, hsRest⟩ := List.pairwise_cons.mp hsorted'
      have hres : getSharedRanges ps = (rest.foldl mergeStep [first]).reverse := by
        unfold getSharedRanges
        rw [hs]
      obtain ⟨hne, hpw, hcov⟩ := mergeFold_props rest [first] (by simp)
        (List.pairwise_singleton _ _) (by simpa using hsHead) hsRest
      constructor
      · rw [hres]
        exact List.pairwise_reverse.mpr hpw
      · intro x
        rw [hres]
        have hmem : ∀ r : IdRange, r ∈ (rest.foldl mergeStep [first]).reverse ↔
            r ∈ rest.foldl mergeStep [first] := by
          intro r
          exact List.mem_reverse
        constructor
        · rintro ⟨r, hr, hx⟩
          have := (hcov x).mp ⟨r, (hmem r).mp hr, hx⟩
          rcases this with ⟨r, hr, hx'⟩ | ⟨r, hr, hx'⟩
          · exact ⟨r, hperm.mem_iff.mp
              (List.mem_cons.mpr (Or.inl (List.mem_singleton.mp hr))), hx'⟩
          · exact ⟨r, hperm.mem_iff.mp (List.mem_cons_of_mem first hr), hx'⟩
        · rintro ⟨r, hr, hx⟩
          have hr' : r ∈ first :: rest := hperm.mem_iff.mpr hr
          have : (∃ r ∈ [first], r.from_ ≤ x ∧ x ≤ r.to_) ∨
              (∃ r ∈ rest, r.from_ ≤ x ∧ x ≤ r.to_) := by
            rcases List.mem_cons.mp hr' with rfl | hm
            · exact Or.inl ⟨r, List.mem_singleton_self r, hx⟩
            · exact Or.inr ⟨r, hm, hx⟩
          obtain ⟨r2, hr2, hx2⟩ := (hcov x).mpr this
          exact ⟨r2, (hmem r2).mpr hr2, hx2⟩
  refine ⟨?_, fun ps => (hmain ps).1, fun ps x => (hmain ps).2 x, by decide, by decide, by decide⟩
  intro ps hall
  unfold getSharedRanges
  have : stableSort (fun a b : IdRange => decide (a.from_ ≤ b.from_))
      (ps.flatMap ALProject.idRanges) = [] := by
    rw [hall]
    rfl
  rw [this]

theorem lookupG_insertGrouped {κ α : Type} [DecidableEq κ] (k0 : κ) (v : α) :
    ∀ (m : List (κ × List α)) (k : κ),
      lookupG (insertGrouped k0 v m) k =
        if k = k0 then some ((lookupG m k0).getD [] ++ [v]) else lookupG m k := by
  intro m
  induction m with
  | nil =>
    intro k
    by_cases h : k = k0
    · subst h
      simp [insertGrouped, lookupG]
    · have h' : ¬k0 = k := fun hh => h hh.symm
      simp [insertGrouped, lookupG, h, h']
  | cons hd rest ih =>
    obtain ⟨k1, l1⟩ := hd
    intro k
    by_cases h1 : k1 = k0
    · subst h1
      simp only [insertGrouped, if_pos rfl]
      by_cases h2 : k1 = k
      · subst h2
        simp [lookupG]
      · have h2' : ¬k = k1 := fun hh => h2 hh.symm
        simp [lookupG, h2, h2']
    · simp only [insertGrouped, if_neg h1]
      by_cases h2 : k1 = k
      · subst h2
        have hne : ¬k1 = k0 := h1
        simp [lookupG, fun hh : k1 = k0 => h1 hh, hne]
      · simp only [lookupG, if_neg h2]
        rw [ih k]
        by_cases h3 : k = k0
        · subst h3
          simp [lookupG, h2, if_neg h1]
        · simp [h3]

theorem keys_insertGrouped {κ α : Type} [DecidableEq κ] (k0 : κ) (v : α) :
    ∀ m : List (κ × List α),
      (insertGrouped k0 v m).map Prod.fst =
        if k0 ∈ m.map Prod.fst then m.map Prod.fst else m.map Prod.fst ++ [k0] := by
  intro m
  induction m with
  | nil => simp [insertGrouped]
  | cons hd rest ih =>
    obtain ⟨k1, l1⟩ := hd
    by_cases h1 : k1 = k0
    · subst h1
      simp [insertGrouped]
    · simp only [insertGrouped, if_neg h1, List.map_cons, ih]
      have hne : k0 ≠ k1 := fun hh => h1 hh.symm
      by_cases h2 : k0 ∈ rest.map Prod.fst
      · simp [List.mem_cons, hne, h2]
      · simp [List.mem_cons, hne, h2]

theorem keys_nodup_insertGrouped {κ α : Type} [DecidableEq κ] (k0 : κ) (v : α)
    (m : List (κ × List α)) (h : (m.map Prod.fst).Nodup) :
    ((insertGrouped k0 v m).map Prod.fst).Nodup := by
  rw [keys_insertGrouped]
  split
  · exact h
  · rename_i hnot
    rw [List.nodup_append]
    refine ⟨h, List.nodup_singleton k0, ?_⟩
    intro a ha hb
    rw [List.mem_singleton] at hb
    subst hb
    exact hnot ha

theorem mem_iff_lookupG {κ α : Type} [DecidableEq κ] :
    ∀ (m : List (κ × List α)), (m.map Prod.fst).Nodup →
      ∀ (k : κ) (l : List α), ((k, l) ∈ m ↔ lookupG m k = some l) := by
  intro m
  induction m with
  | nil => intro _ k l; simp [lookupG]
  | cons hd rest ih =>
    obtain ⟨k1, l1⟩ := hd
    intro hnd k l
    obtain ⟨hk1, hndRest⟩ := by
      simpa only [List.map_cons, List.nodup_cons] using hnd
    by_cases h : k1 = k
    · subst h
      have hred : lookupG ((k1, l1) :: rest) k1 = some l1 := by
        simp [lookupG]
      rw [hred]
      constructor
      · intro h2
        rcases List.mem_cons.mp h2 with h3 | h3
        · injection h3 with h3a h3b
          rw [h3b]
        · exact absurd (List.mem_map.mpr ⟨(k1, l), h3, rfl⟩) hk1
      · intro h2
        injection h2 with h2a
        exact List.mem_cons.mpr (Or.inl (by rw [h2a]))
    · simp only [lookupG, if_neg h, List.mem_cons]
      rw [← ih hndRest k l]
      constructor
      · rintro (h2 | h2)
        · injection h2 with h2a h2b
          exact absurd h2a.symm h
        · exact h2
      · intro h2
        exact Or.inr h2

theorem groupFold_lookup {κ α : Type} [DecidableEq κ] [DecidableEq α]
    (stream : List (κ × α)) :
    ∀ k : κ,
      lookupG (groupFold stream) k =
        if (stream.filter (fun kv => kv.1 = k)).map Prod.snd = [] then none
        else some ((stream.filter (fun kv => kv.1 = k)).map Prod.snd) := by
  induction stream using List.reverseRecOn with
  | nil => intro k; simp [groupFold, lookupG]
  | append_singleton rest kv ih =>
    intro k
    obtain ⟨k0, v⟩ := kv
    have hfold : groupFold (rest ++ [(k0, v)]) =
        insertGrouped k0 v (groupFold rest) := by
      simp [groupFold, List.foldl_append]
    rw [hfold, lookupG_insertGrouped, List.filter_append]
    by_cases h : k = k0
    · subst h
      rw [ih k]
      simp only [List.filter_cons, List.filter_nil, decide_eq_true_eq, if_pos rfl,
        List.map_append]
      by_cases h2 : (rest.filter (fun kv => kv.1 = k)).map Prod.snd = []
      · simp [h2]
      · simp [h2]
    · have hne : ¬((k0, v).1 = k) := fun hh => h hh.symm
      rw [ih k]
      have hd' : (decide (k0 = k)) = false := decide_eq_false (fun hh => h hh.symm)
      have hfilter : List.filter (fun kv => decide (kv.1 = k)) [(k0, v)] = [] := by
        rw [List.filter_cons, List.filter_nil]
        simp [hd']
      rw [hfilter, List.append_nil, if_neg h]

theorem groupFold_keys_nodup {κ α : Type} [DecidableEq κ] (stream : List (κ × α)) :
    ((groupFold stream).map Prod.fst).Nodup := by
  induction stream using List.reverseRecOn with
  | nil => simp [groupFold]
  | append_singleton rest kv ih =>
    have hfold : groupFold (rest ++ [kv]) =
        insertGrouped kv.1 kv.2 (groupFold rest) := by
      simp [groupFold, List.foldl_append]
    rw [hfold]
    exact keys_nodup_insertGrouped _ _ _ ih

theorem mem_groupFold_iff {κ α : Type} [DecidableEq κ] [DecidableEq α]
    (stream : List (κ × α)) (k : κ) (l : List α) :
    (k, l) ∈ groupFold stream ↔
      (l = (stream.filter (fun kv => kv.1 = k)).map Prod.snd ∧ l ≠ []) := by
  rw [mem_iff_lookupG _ (groupFold_keys_nodup stream), groupFold_lookup]
  split
  · rename_i hemp
    rw [hemp]
    constructor
    · intro h
      exact Option.noConfusion h
    · rintro ⟨rfl, hne⟩
      exact absurd rfl hne
  · rename_i hemp
    constructor
    · intro h
      injection h with h2
      exact ⟨h2.symm, fun hl => hemp (h2.trans hl)⟩
    · rintro ⟨h1, -⟩
      rw [h1]

theorem dedup_length_le_one_iff {α : Type} [DecidableEq α] (l : List α) :
    l.dedup.length ≤ 1 ↔ ∀ a ∈ l, ∀ b ∈ l, a = b := by
  constructor
  · intro h a ha b hb
    have ha' : a ∈ l.dedup := List.mem_dedup.mpr ha
    have hb' : b ∈ l.dedup := List.mem_dedup.mpr hb
    rcases hd : l.dedup with _ | ⟨x, rest⟩
    · rw [hd] at ha'
      cases ha'
    · rcases rest with _ | ⟨y, rest2⟩
      · rw [hd] at ha' hb'
        rw [List.mem_singleton.mp ha', List.mem_singleton.mp hb']
      · rw [hd] at h
        simp at h
  · intro h
    rcases hd : l.dedup with _ | ⟨x, rest⟩
    · simp
    · rcases rest with _ | ⟨y, rest2⟩
      · simp
      · exfalso
        have hnd := l.nodup_dedup
        rw [hd] at hnd
        have hxy : x ≠ y :=
          (List.pairwise_cons.mp hnd).1 y (List.mem_cons_self _ _)
        have hx : x ∈ l := List.mem_dedup.mp (by rw [hd]; exact List.mem_cons_self _ _)
        have hy : y ∈ l := List.mem_dedup.mp (by rw [hd]; simp)
        exact hxy (h x hx y hy)

theorem dedup_length_gt_one_iff {α : Type} [DecidableEq α] (l : List α) :
    l.dedup.length > 1 ↔ ∃ a ∈ l, ∃ b ∈ l, a ≠ b := by
  rw [show (l.dedup.length > 1 ↔ ¬(l.dedup.length ≤ 1)) by omega,
    dedup_length_le_one_iff]
  push_neg
  rfl

theorem one_lt_length_of_two_mem {α : Type} {l : List α} {a b : α}
    (ha : a ∈ l) (hb : b ∈ l) (hne : a ≠ b) : 1 < l.length := by
  rcases l with _ | ⟨x, rest⟩
  · cases ha
  · rcases rest with _ | ⟨y, rest2⟩
    · rw [List.mem_singleton.mp ha, List.mem_singleton.mp hb] at hne
      exact absurd rfl hne
    · simp only [List.length_cons]
      omega

theorem groupByTypeId_eq (objs : List ALObject) :
    groupByTypeId objs = groupFold (objs.map (fun o => ((o.type, o.id), o))) := by
  unfold groupByTypeId groupFold
  rw [List.foldl_map]

theorem foldl_flatMap {α β γ : Type} (g : α → List β) (f : γ → β → γ) :
    ∀ (xs : List α) (init : γ),
      (xs.flatMap g).foldl f init = xs.foldl (fun m x => (g x).foldl f m) init := by
  intro xs
  induction xs with
  | nil => intro init; rfl
  | cons x rest ih =>
    intro init
    rw [List.flatMap_cons, List.foldl_append, ih, List.foldl_cons]

theorem collectFieldOccs_eq (ps : List ALProjectWithFields) :
    collectFieldOccs ps = groupFold (fieldOccStream ps) := by
  unfold collectFieldOccs groupFold fieldOccStream
  rw [foldl_flatMap]
  congr 1
  funext m p
  rw [foldl_flatMap]
  congr 1
  funext m2 o
  cases ho : o.extendsObject with
  | none => rfl
  | some base =>
    cases hf : o.fields with
    | none => rfl
    | some fs =>
      dsimp only
      by_cases hq : o.type = ALObjectType.tableextension ∧ base ≠ "" ∧ fs.length > 0
      · rw [if_pos hq, if_pos hq, List.foldl_map]
      · rw [if_neg hq, if_neg hq]
        rfl

theorem conflictOfGroup_eq_some_iff (e : (ALObjectType × Nat) × List ALObject)
    (c : IdConflict) :
    conflictOfGroup e = some c ↔
      (e.2.length > 1 ∧
       (e.2.map (fun o => dirname o.filePath)).dedup.length > 1 ∧
       ∃ o tail, e.2 = o :: tail ∧ c = ⟨o.id, o.type, e.2⟩) := by
  obtain ⟨k, objs⟩ := e
  unfold conflictOfGroup
  dsimp only
  rcases objs with _ | ⟨o, tail⟩
  · constructor
    · intro h
      rw [if_neg (by simp)] at h
      exact Option.noConfusion h
    · rintro ⟨h, -⟩
      simp at h
  · by_cases h1 : (o :: tail).length > 1
    · rw [if_pos h1]
      by_cases h2 : ((o :: tail).map (fun o => dirname o.filePath)).dedup.length > 1
      · rw [if_pos h2]
        simp only [Option.some.injEq]
        constructor
        · intro h
          exact ⟨h1, h2, o, tail, rfl, h.symm⟩
        · rintro ⟨-, -, o2, tail2, heq, hc⟩
          injection heq with heq1 heq2
          subst heq1 heq2
          rw [hc]
      · rw [if_neg h2]
        constructor
        · intro h
          exact Option.noConfusion h
        · rintro ⟨-, hb, -⟩
          exact absurd hb h2
    · rw [if_neg h1]
      constructor
      · intro h
        exact Option.noConfusion h
      · rintro ⟨hb, -⟩
        exact absurd hb h1

theorem objGroup_eq_stream (ps : List ALProject) (t : ALObjectType) (i : Nat) :
    (((ps.flatMap ALProject.objects).map (fun o => ((o.type, o.id), o))).filter
      (fun kv => kv.1 = (t, i))).map Prod.snd = objGroup ps t i := by
  unfold objGroup
  rw [List.filter_map, List.map_map]
  have h1 : (Prod.snd ∘ fun o : ALObject => ((o.type, o.id), o)) = id := rfl
  rw [h1, List.map_id]
  apply List.filter_congr
  intro o _
  show decide ((o.type, o.id) = (t, i)) = decide (o.type = t ∧ o.id = i)
  rw [decide_eq_decide]
  simp [Prod.ext_iff]

theorem mem_detectConflicts_iff (ps : List ALProject) (c : IdConflict) :
    c ∈ detectConflicts ps ↔
      ∃ t i, c.type = t ∧ c.id = i ∧ c.objects = objGroup ps t i ∧
        (objGroup ps t i).length > 1 ∧
        ((objGroup ps t i).map (fun o => dirname o.filePath)).dedup.length > 1 := by
  unfold detectConflicts
  rw [(stableSort_perm _ _).mem_iff, List.mem_filterMap]
  constructor
  · rintro ⟨e, he, hsome⟩
    obtain ⟨⟨t, i⟩, objs⟩ := e
    rw [groupByTypeId_eq] at he
    obtain ⟨hobj, hne⟩ := (mem_groupFold_iff _ _ _).mp he
    rw [objGroup_eq_stream] at hobj
    obtain ⟨h1, h2, o, tail, heq, hc⟩ := (conflictOfGroup_eq_some_iff _ _).mp hsome
    dsimp only at h1 h2 heq hc
    have homem : o ∈ objGroup ps t i := by
      rw [← hobj, heq]
      exact List.mem_cons_self _ _
    have hpred := List.of_mem_filter homem
    obtain ⟨hot, hoi⟩ := of_decide_eq_true hpred
    refine ⟨t, i, ?_, ?_, ?_, ?_, ?_⟩
    · rw [hc]
      exact hot
    · rw [hc]
      exact hoi
    · rw [hc]
      exact hobj
    · rw [← hobj]
      exact h1
    · rw [← hobj]
      exact h2
  · rintro ⟨t, i, hct, hci, hcobjs, hlen, hdirs⟩
    refine ⟨((t, i), objGroup ps t i), ?_, ?_⟩
    · rw [groupByTypeId_eq]
      apply (mem_groupFold_iff _ _ _).mpr
      refine ⟨(objGroup_eq_stream _ _ _).symm, ?_⟩
      intro h
      rw [h] at hlen
      simp at hlen
    · apply (conflictOfGroup_eq_some_iff _ _).mpr
      dsimp only
      refine ⟨hlen, hdirs, ?_⟩
      rcases hg : objGroup ps t i with _ | ⟨o, tail⟩
      · rw [hg] at hlen
        simp at hlen
      · refine ⟨o, tail, rfl, ?_⟩
        have homem : o ∈ objGroup ps t i := by
          rw [hg]
          exact List.mem_cons_self _ _
        have hpred := List.of_mem_filter homem
        obtain ⟨hot, hoi⟩ := of_decide_eq_true hpred
        cases c with
        | mk cid ctype cobjs =>
          have hci' : cid = i := hci
          have hct' : ctype = t := hct
          have hcobjs' : cobjs = objGroup ps t i := hcobjs
          subst hci' hct' hcobjs'
          simp only [IdConflict.mk.injEq]
          exact ⟨hoi.symm, hot.symm, hg⟩

/-- C1 (amended): the whole-object conflict detector reports a (kind, id)
group if and only if the group's declarations live in at least two distinct
parent directories of their files (path.dirname of filePath) — the source
approximates project identity by file directory, so same-project duplicates
in different directories are reported and the reported conflict carries the
whole group. -/
theorem claim_C1 :
    (∀ (ps : List ALProject) (t : ALObjectType) (i : Nat),
      (∃ c ∈ detectConflicts ps, c.type = t ∧ c.id = i) ↔
      (∃ o1 ∈ objGroup ps t i, ∃ o2 ∈ objGroup ps t i,
        dirname o1.filePath ≠ dirname o2.filePath)) ∧
    (∀ ps, ∀ c ∈ detectConflicts ps, c.objects = objGroup ps c.type c.id) := by
  constructor
  · intro ps t i
    constructor
    · rintro ⟨c, hc, hct, hci⟩
      obtain ⟨t', i', h1, h2, h3, h4, h5⟩ := (mem_detectConflicts_iff ps c).mp hc
      have ht : t' = t := by rw [← h1, hct]
      have hi : i' = i := by rw [← h2, hci]
      subst ht hi
      rw [dedup_length_gt_one_iff] at h5
      obtain ⟨a, ha, b, hb, hab⟩ := h5
      obtain ⟨o1, ho1, rfl⟩ := List.mem_map.mp ha
      obtain ⟨o2, ho2, rfl⟩ := List.mem_map.mp hb
      exact ⟨o1, ho1, o2, ho2, hab⟩
    · rintro ⟨o1, ho1, o2, ho2, hne⟩
      have hlen : (objGroup ps t i).length > 1 :=
        one_lt_length_of_two_mem ho1 ho2 (fun h => hne (by rw [h]))
      have hdirs : ((objGroup ps t i).map
          (fun o => dirname o.filePath)).dedup.length > 1 := by
        rw [dedup_length_gt_one_iff]
        exact ⟨_, List.mem_map_of_mem _ ho1, _, List.mem_map_of_mem _ ho2, hne⟩
      refine ⟨⟨i, t, objGroup ps t i⟩, ?_, rfl, rfl⟩
      exact (mem_detectConflicts_iff ps _).mpr ⟨t, i, rfl, rfl, rfl, hlen, hdirs⟩
  · intro ps c hc
    obtain ⟨t, i, h1, h2, h3, -, -⟩ := (mem_detectConflicts_iff ps c).mp hc
    rw [h3, h1, h2]

/-- Counterexample to C1 as stated: a single project whose two table 50000
declarations live in two different subdirectories is reported as a conflict,
although the claim says duplicates contributed by only one project are never
reported regardless of which directories contain them. -/
theorem claim_C1_counterexample :
    detectConflicts [⟨"A", "/p", [],
      [⟨ALObjectType.table, 50000, "X", 1, "/p/a/x.al"⟩,
       ⟨ALObjectType.table, 50000, "Y", 1, "/p/b/y.al"⟩]⟩] =
      [⟨50000, ALObjectType.table,
        [⟨ALObjectType.table, 50000, "X", 1, "/p/a/x.al"⟩,
         ⟨ALObjectType.table, 50000, "Y", 1, "/p/b/y.al"⟩]⟩] := by
  decide

theorem fieldConflictOfGroup_eq_some_iff
    (e : (String × Nat) × List FieldOccurrence) (c : FieldConflict) :
    fieldConflictOfGroup e = some c ↔
      (e.2.length > 1 ∧
       (e.2.map FieldOccurrence.projectName).dedup.length > 1 ∧
       c = ⟨jsParseInt (((fieldKey e.1.1 e.1.2).splitOn ":").getD 1 ""),
            ((fieldKey e.1.1 e.1.2).splitOn ":").getD 0 "",
            e.2.map mkConflictField⟩) := by
  obtain ⟨⟨base, fid⟩, occs⟩ := e
  unfold fieldConflictOfGroup
  dsimp only
  by_cases h1 : occs.length > 1
  · rw [if_pos h1]
    by_cases h2 : (occs.map FieldOccurrence.projectName).dedup.length > 1
    · rw [if_pos h2]
      simp only [Option.some.injEq]
      constructor
      · intro h
        exact ⟨h1, h2, h.symm⟩
      · rintro ⟨-, -, hc⟩
        rw [hc]
    · rw [if_neg h2]
      constructor
      · intro h
        exact Option.noConfusion h
      · rintro ⟨-, hb, -⟩
        exact absurd hb h2
  · rw [if_neg h1]
    constructor
    · intro h
      exact Option.noConfusion h
    · rintro ⟨hb, -⟩
      exact absurd hb h1

theorem mem_detectFieldConflicts_iff (ps : List ALProjectWithFields)
    (c : FieldConflict) :
    c ∈ detectFieldConflicts ps ↔
      ∃ base fid, (fieldOccsOf ps base fid).length > 1 ∧
        ((fieldOccsOf ps base fid).map FieldOccurrence.projectName).dedup.length > 1 ∧
        c = ⟨jsParseInt (((fieldKey base fid).splitOn ":").getD 1 ""),
             ((fieldKey base fid).splitOn ":").getD 0 "",
             (fieldOccsOf ps base fid).map mkConflictField⟩ := by
  unfold detectFieldConflicts
  rw [(stableSort_perm _ _).mem_iff, List.mem_filterMap]
  constructor
  · rintro ⟨e, he, hsome⟩
    obtain ⟨⟨base, fid⟩, occs⟩ := e
    rw [collectFieldOccs_eq] at he
    obtain ⟨hocc, hne⟩ := (mem_groupFold_iff _ _ _).mp he
    obtain ⟨h1, h2, hc⟩ := (fieldConflictOfGroup_eq_some_iff _ _).mp hsome
    dsimp only at h1 h2 hc
    have hocc' : occs = fieldOccsOf ps base fid := hocc
    refine ⟨base, fid, ?_, ?_, ?_⟩
    · rw [← hocc']
      exact h1
    · rw [← hocc']
      exact h2
    · rw [hc, hocc']
  · rintro ⟨base, fid, h1, h2, hc⟩
    refine ⟨((base, fid), fieldOccsOf ps base fid), ?_, ?_⟩
    · rw [collectFieldOccs_eq]
      apply (mem_groupFold_iff _ _ _).mpr
      refine ⟨rfl, ?_⟩
      intro h
      have h' : fieldOccsOf ps base fid = [] := h
      rw [h'] at h1
      simp at h1
    · apply (fieldConflictOfGroup_eq_some_iff _ _).mpr
      exact ⟨h1, h2, hc⟩

theorem mkConflictField_injective : Function.Injective mkConflictField := by
  rintro ⟨⟨i1, n1, d1, l1, p1⟩, pn1, e1, en1⟩ ⟨⟨i2, n2, d2, l2, p2⟩, pn2, e2, en2⟩ h
  simp only [mkConflictField, ConflictField.mk.injEq] at h
  obtain ⟨rfl, rfl, rfl, rfl, rfl, rfl, rfl, rfl⟩ := h
  rfl

/-- C6: the field conflict detector reports the (extendsName, field id) group
of qualifying tableextensions (kind tableextension, non-empty extends name,
non-empty field list) if and only if the group's occurrences come from at
least two distinct project names; concretely, two extensions of Customer
reusing field id 50100 from two different projects yield exactly one
conflict, while the same two extensions inside one project yield none. -/
theorem claim_C6 :
    (∀ (ps : List ALProjectWithFields) (base : String) (fid : Nat),
      (∃ c ∈ detectFieldConflicts ps,
        c.fields = (fieldOccsOf ps base fid).map mkConflictField) ↔
      (∃ oc1 ∈ fieldOccsOf ps base fid, ∃ oc2 ∈ fieldOccsOf ps base fid,
        oc1.projectName ≠ oc2.projectName)) ∧
    (detectFieldConflicts
      [⟨"P1", "/p1", [], [⟨ALObjectType.tableextension, 50000, "E1", 1,
          "/p1/e1.al", some "Customer",
          some [⟨50100, "F", "Int", 3, "/p1/e1.al"⟩], none⟩]⟩,
       ⟨"P2", "/p2", [], [⟨ALObjectType.tableextension, 50001, "E2", 1,
          "/p2/e2.al", some "Customer",
          some [⟨50100, "G", "Int", 3, "/p2/e2.al"⟩], none⟩]⟩]).length = 1 ∧
    detectFieldConflicts
      [⟨"P", "/p", [], [⟨ALObjectType.tableextension, 50000, "E1", 1,
          "/p/e1.al", some "Customer",
          some [⟨50100, "F", "Int", 3, "/p/e1.al"⟩], none⟩,
        ⟨ALObjectType.tableextension, 50001, "E2", 1,
          "/p/e2.al", some "Customer",
          some [⟨50100, "G", "Int", 3, "/p/e2.al"⟩], none⟩]⟩] = [] := by
  refine ⟨?_, by decide, by decide⟩
  intro ps base fid
  constructor
  · rintro ⟨c, hc, hfields⟩
    obtain ⟨base', fid', h1, h2, hcrec⟩ := (mem_detectFieldConflicts_iff ps c).mp hc
    have hfields' : (fieldOccsOf ps base' fid').map mkConflictField =
        (fieldOccsOf ps base fid).map mkConflictField := by
      rw [← hfields, hcrec]
    have hgroups : fieldOccsOf ps base' fid' = fieldOccsOf ps base fid :=
      List.map_injective_iff.mpr mkConflictField_injective hfields'
    rw [hgroups] at h2
    rw [dedup_length_gt_one_iff] at h2
    obtain ⟨a, ha, b, hb, hab⟩ := h2
    obtain ⟨oc1, ho1, rfl⟩ := List.mem_map.mp ha
    obtain ⟨oc2, ho2, rfl⟩ := List.mem_map.mp hb
    exact ⟨oc1, ho1, oc2, ho2, hab⟩
  · rintro ⟨oc1, ho1, oc2, ho2, hne⟩
    have hlen : (fieldOccsOf ps base fid).length > 1 :=
      one_lt_length_of_two_mem ho1 ho2 (fun h => hne (by rw [h]))
    have hdirs : ((fieldOccsOf ps base fid).map
        FieldOccurrence.projectName).dedup.length > 1 := by
      rw [dedup_length_gt_one_iff]
      exact ⟨_, List.mem_map_of_mem _ ho1, _, List.mem_map_of_mem _ ho2, hne⟩
    refine ⟨⟨jsParseInt (((fieldKey base fid).splitOn ":").getD 1 ""),
             ((fieldKey base fid).splitOn ":").getD 0 "",
             (fieldOccsOf ps base fid).map mkConflictField⟩, ?_, rfl⟩
    exact (mem_detectFieldConflicts_iff ps _).mpr ⟨base, fid, hlen, hdirs, rfl⟩

/-- Witness for C1 at a concrete input: the reported conflict of the
two-directory project indeed carries the whole (table, 50000) group. -/
theorem claim_C1_witness :
    (⟨50000, ALObjectType.table,
      [⟨ALObjectType.table, 50000, "X", 1, "/p/a/x.al"⟩,
       ⟨ALObjectType.table, 50000, "Y", 1, "/p/b/y.al"⟩]⟩ : IdConflict) ∈
      detectConflicts [⟨"A", "/p", [],
        [⟨ALObjectType.table, 50000, "X", 1, "/p/a/x.al"⟩,
         ⟨ALObjectType.table, 50000, "Y", 1, "/p/b/y.al"⟩]⟩] ∧
    [⟨ALObjectType.table, 50000, "X", 1, "/p/a/x.al"⟩,
     ⟨ALObjectType.table, 50000, "Y", 1, "/p/b/y.al"⟩] =
      objGroup [⟨"A", "/p", [],
        [⟨ALObjectType.table, 50000, "X", 1, "/p/a/x.al"⟩,
         ⟨ALObjectType.table, 50000, "Y", 1, "/p/b/y.al"⟩]⟩]
        ALObjectType.table 50000 :=
  ⟨by decide,
   claim_C1.2 [⟨"A", "/p", [],
      [⟨ALObjectType.table, 50000, "X", 1, "/p/a/x.al"⟩,
       ⟨ALObjectType.table, 50000, "Y", 1, "/p/b/y.al"⟩]⟩]
    ⟨50000, ALObjectType.table,
      [⟨ALObjectType.table, 50000, "X", 1, "/p/a/x.al"⟩,
       ⟨ALObjectType.table, 50000, "Y", 1, "/p/b/y.al"⟩]⟩ (by decide)⟩

/-- Witness for C5 at a concrete input: no projects means no ranges and an
empty merge result. -/
theorem claim_C5_witness :
    ([] : List ALProject).flatMap ALProject.idRanges = [] ∧
      getSharedRanges [] = [] :=
  ⟨rfl, claim_C5.1 [] rfl⟩

theorem idxOf2_le_of_occurs (a b : Char) :
    ∀ (cs : List Char) (n : Nat), ((cs.drop n).take 2 = [a, b]) →
      ∃ i, idxOf2 a b cs = some i ∧ i ≤ n := by
  intro cs
  induction cs with
  | nil =>
    intro n h
    rw [List.drop_nil] at h
    simp at h
  | cons x cs' ih =>
    intro n h
    cases cs' with
    | nil =>
      exfalso
      have hlen := congrArg List.length h
      simp only [List.length_take, List.length_drop, List.length_cons,
        List.length_nil] at hlen
      omega
    | cons y rest =>
      by_cases hxy : x = a ∧ y = b
      · exact ⟨0, by simp [idxOf2, hxy], Nat.zero_le n⟩
      · cases n with
        | zero =>
          exfalso
          rw [List.drop_zero] at h
          rw [List.take_succ_cons, List.take_succ_cons, List.take_zero] at h
          injection h with h1 h2
          injection h2 with h2 h3
          exact hxy ⟨h1, h2⟩
        | succ m =>
          rw [List.drop_succ_cons] at h
          obtain ⟨i, hi, hle⟩ := ih m h
          refine ⟨i + 1, ?_, by omega⟩
          unfold idxOf2
          rw [if_neg hxy, hi]
          rfl

theorem lastIdxOf2_ge_of_occurs (a b : Char) :
    ∀ (cs : List Char) (n : Nat), ((cs.drop n).take 2 = [a, b]) →
      ∃ o, lastIdxOf2 a b cs = some o ∧ n ≤ o := by
  intro cs
  induction cs with
  | nil =>
    intro n h
    rw [List.drop_nil] at h
    simp at h
  | cons x cs' ih =>
    intro n h
    cases cs' with
    | nil =>
      exfalso
      have hlen := congrArg List.length h
      simp only [List.length_take, List.length_drop, List.length_cons,
        List.length_nil] at hlen
      omega
    | cons y rest =>
      cases n with
      | zero =>
        rw [List.drop_zero] at h
        rw [List.take_succ_cons, List.take_succ_cons, List.take_zero] at h
        injection h with h1 h2
        injection h2 with h2 h3
        cases hlast : lastIdxOf2 a b (y :: rest) with
        | some o' =>
          refine ⟨o' + 1, ?_, by omega⟩
          unfold lastIdxOf2
          rw [hlast]
        | none =>
          refine ⟨0, ?_, Nat.le_refl 0⟩
          unfold lastIdxOf2
          rw [hlast, h1, h2]
          simp
      | succ m =>
        rw [List.drop_succ_cons] at h
        obtain ⟨o', ho', hge⟩ := ih m h
        refine ⟨o' + 1, ?_, by omega⟩
        unfold lastIdxOf2
        rw [ho']

theorem stepCore_inML (fp : String) (s : ScanState) (w : List Char) :
    (stepCore fp s w).inMultiLineComment = hasUnclosedMultiLineComment w := rfl

/-- C7: when a line comment marker occurs before a block open marker in the
line with its complete block comments removed, the scanner does not treat the
open as starting a multi-line comment: hasUnclosedMultiLineComment is false,
and a scan that is not inside a block comment stays outside after the line,
so the following lines are scanned normally. -/
theorem claim_C7 :
    ∀ (line : List Char) (n m : Nat),
      ((stripOnce line).drop n).take 2 = ['/', '/'] →
      ((stripOnce line).drop m).take 2 = ['/', '*'] →
      n < m →
      hasUnclosedMultiLineComment line = false ∧
      ∀ (fp : String) (s : ScanState), s.inMultiLineComment = false →
        (stepFn fp s (String.mk line)).inMultiLineComment = false := by
  intro line n m hslash hopen hnm
  obtain ⟨i, hi, hile⟩ := idxOf2_le_of_occurs '/' '/' (stripOnce line) n hslash
  obtain ⟨o, ho, hoge⟩ := lastIdxOf2_ge_of_occurs '/' '*' (stripOnce line) m hopen
  have hio : i < o := by omega
  have hfalse : hasUnclosedMultiLineComment line = false := by
    unfold hasUnclosedMultiLineComment
    rw [ho, hi]
    simp [hio]
  refine ⟨hfalse, ?_⟩
  intro fp s hs
  have hstep : stepFn fp s (String.mk line) = stepCore fp s line := by
    unfold stepFn effectiveLine
    rw [hs]
    simp only [Bool.false_eq_true, if_false]
  rw [hstep, stepCore_inML]
  exact hfalse

/-- Witness for C7 at a concrete line: in the line a // b /* the line
comment at index 2 precedes the block open at index 7 and the block comment
state does not activate. -/
theorem claim_C7_witness :
    ((stripOnce ("a // b /*".data)).drop 2).take 2 = ['/', '/'] ∧
    hasUnclosedMultiLineComment ("a // b /*".data) = false :=
  ⟨by decide,
   (claim_C7 ("a // b /*".data) 2 7 (by decide) (by decide) (by decide)).1⟩

/-! ### C2: removing a declaration line -/

theorem lineNo_stepFn (fp : String) (s : ScanState) (line : String) :
    (stepFn fp s line).lineNo = s.lineNo + 1 := by
  unfold stepFn
  cases h : effectiveLine s line with
  | none => rfl
  | some w => rfl

theorem inML_stepFn (fp : String) (s : ScanState) (line : String) :
    (stepFn fp s line).inMultiLineComment = inMLAfter s.inMultiLineComment line := by
  unfold stepFn effectiveLine inMLAfter
  by_cases hb : s.inMultiLineComment = true
  · rw [if_pos hb, if_pos hb]
    cases hk : idxOf2 '*' '/' line.data with
    | none => exact hb
    | some k => exact stepCore_inML fp s _
  · rw [if_neg hb, if_neg hb]
    exact stepCore_inML fp s line.data

theorem headers_close (F : List ALObjectWithFields) (c : Option ALObjectWithFields)
    (p : Prop) [Decidable p] :
    ((if p then F ++ c.toList else F) ++
        (if p then (none : Option ALObjectWithFields) else c).toList).map
      ALObjectWithFields.lineNumber =
      F.map ALObjectWithFields.lineNumber ++
        c.toList.map ALObjectWithFields.lineNumber := by
  by_cases hp : p <;> simp [hp]

theorem applyField_headers (cleaned : List Char) (ln : Nat) (fp : String)
    (inF : Bool) (c? : Option ALObjectWithFields) :
    (applyField cleaned ln fp inF c?).toList.map ALObjectWithFields.lineNumber =
      c?.toList.map ALObjectWithFields.lineNumber := by
  cases c? with
  | none => rfl
  | some c =>
    simp only [applyField]
    by_cases h : (inF = true ∧ isTableKind c.type = true)
    · rw [if_pos h]
      cases hf : matchField cleaned with
      | none => rfl
      | some t =>
        obtain ⟨fid, fnm, fty⟩ := t
        rfl
    · rw [if_neg h]

theorem applyValue_headers (cleaned : List Char) (ln : Nat) (fp : String)
    (bd : Int) (c? : Option ALObjectWithFields) :
    (applyValue cleaned ln fp bd c?).toList.map ALObjectWithFields.lineNumber =
      c?.toList.map ALObjectWithFields.lineNumber := by
  cases c? with
  | none => rfl
  | some c =>
    simp only [applyValue]
    by_cases h : (isEnumKind c.type = true ∧ bd > 0)
    · rw [if_pos h]
      cases hv : matchValue cleaned with
      | none => rfl
      | some t =>
        obtain ⟨vid, vnm⟩ := t
        rfl
    · rw [if_neg h]

theorem headersOf_stepCore (fp : String) (s : ScanState) (w : List Char) :
    headersOf (stepCore fp s w) =
      headersOf s ++
        (if (matchHeader (stripComments w)).isSome then [s.lineNo + 1] else []) := by
  cases hmh : matchHeader (stripComments w) with
  | none =>
    have h1 : headerCtx fp s (s.lineNo + 1) (stripComments w) =
        (s.current, s.finished, s.braceDepth, s.inFieldsBlock,
         s.expectingFieldsBlockBrace) := by
      unfold headerCtx
      rw [hmh]
    simp only [stepCore, h1, headersOf, hmh, Option.isSome_none,
      Bool.false_eq_true, if_false]
    rw [headers_close, List.append_nil, List.map_append]
    rw [applyValue_headers, applyField_headers]
  | some h3 =>
    obtain ⟨ty, oid, nm⟩ := h3
    have h1 : headerCtx fp s (s.lineNo + 1) (stripComments w) =
        (some { type := ty, id := oid, name := nm, lineNumber := s.lineNo + 1,
                filePath := fp,
                extendsObject := findExtends (stripComments w),
                fields := if isTableKind ty then some [] else none,
                enumValues := if isEnumKind ty then some [] else none },
         s.finished ++ s.current.toList, (0 : Int), false, false) := by
      unfold headerCtx
      rw [hmh]
    simp only [stepCore, h1, headersOf, hmh, Option.isSome_some,
      eq_self_iff_true, if_true]
    rw [headers_close]
    rw [applyValue_headers, applyField_headers]
    rfl

theorem headersOf_stepFn (fp : String) (s : ScanState) (line : String) :
    headersOf (stepFn fp s line) =
      headersOf s ++
        (if headerEv s.inMultiLineComment line then [s.lineNo + 1] else []) := by
  unfold stepFn effectiveLine headerEv
  by_cases hb : s.inMultiLineComment = true
  · rw [if_pos hb, if_pos hb]
    cases hk : idxOf2 '*' '/' line.data with
    | none =>
      show headersOf { s with lineNo := s.lineNo + 1 } =
        headersOf s ++ (if (false : Bool) = true then [s.lineNo + 1] else [])
      simp [headersOf]
    | some k =>
      exact headersOf_stepCore fp s _
  · rw [if_neg hb, if_neg hb]
    exact headersOf_stepCore fp s line.data

theorem lineNo_foldl (fp : String) :
    ∀ (xs : List String) (s : ScanState),
      (xs.foldl (stepFn fp) s).lineNo = s.lineNo + xs.length := by
  intro xs
  induction xs with
  | nil => intro s; simp
  | cons line rest ih =>
    intro s
    rw [List.foldl_cons, ih, lineNo_stepFn]
    simp
    omega

theorem headersOf_bound (fp : String) :
    ∀ (xs : List String) (s : ScanState),
      (∀ x ∈ headersOf s, x ≤ s.lineNo) →
      ∀ x ∈ headersOf (xs.foldl (stepFn fp) s),
        x ≤ (xs.foldl (stepFn fp) s).lineNo := by
  intro xs
  induction xs with
  | nil => intro s h; simpa using h
  | cons line rest ih =>
    intro s h
    rw [List.foldl_cons]
    apply ih
    intro x hx
    rw [headersOf_stepFn] at hx
    rw [lineNo_stepFn]
    rcases List.mem_append.1 hx with h1 | h2
    · exact Nat.le_trans (h x h1) (Nat.le_succ _)
    · split at h2
      · simp at h2
        omega
      · simp at h2

theorem headers_sim (fp : String) (t : Nat) :
    ∀ (rest : List String) (s₁ s₂ : ScanState) (A B : List Nat),
      s₁.inMultiLineComment = s₂.inMultiLineComment →
      s₁.lineNo = s₂.lineNo →
      t ≤ s₁.lineNo →
      headersOf s₁ = A ++ t :: B →
      headersOf s₂ = A ++ B →
      ∃ C : List Nat,
        headersOf (rest.foldl (stepFn fp) s₁) = A ++ t :: (B ++ C) ∧
        headersOf (rest.foldl (stepFn fp) s₂) = A ++ (B ++ C) ∧
        (∀ x ∈ C, t < x) := by
  intro rest
  induction rest with
  | nil =>
    intro s₁ s₂ A B h1 h2 h3 h4 h5
    exact ⟨[], by simpa using h4, by simpa using h5, by simp⟩
  | cons line rest ih =>
    intro s₁ s₂ A B hml hln ht hH1 hH2
    rw [List.foldl_cons, List.foldl_cons]
    have e1 := headersOf_stepFn fp s₁ line
    have e2 := headersOf_stepFn fp s₂ line
    rw [hml, hln] at e1
    obtain ⟨C, hc1, hc2, hc3⟩ :=
      ih (stepFn fp s₁ line) (stepFn fp s₂ line) A
        (B ++ (if headerEv s₂.inMultiLineComment line then [s₂.lineNo + 1] else []))
        (by rw [inML_stepFn, inML_stepFn, hml])
        (by rw [lineNo_stepFn, lineNo_stepFn, hln])
        (by rw [lineNo_stepFn]; omega)
        (by rw [e1, hH1]; simp)
        (by rw [e2, hH2]; simp)
    refine ⟨(if headerEv s₂.inMultiLineComment line then [s₂.lineNo + 1] else []) ++ C,
      ?_, ?_, ?_⟩
    · rw [hc1]
      simp
    · rw [hc2]
      simp
    · intro x hx
      rcases List.mem_append.1 hx with h | h
      · split at h
        · simp at h
          omega
        · simp at h
      · exact hc3 x h

theorem list_decomp {α : Type} (d : α) :
    ∀ (xs : List α) (n : Nat), n < xs.length →
      xs = xs.take n ++ xs.getD n d :: xs.drop (n + 1) := by
  intro xs
  induction xs with
  | nil => intro n h; simp at h
  | cons x xs ih =>
    intro n h
    cases n with
    | zero => simp [List.getD]
    | succ m =>
      have := ih m (by simpa using h)
      simp only [List.take_succ_cons, List.drop_succ_cons, List.getD_cons_succ,
        List.cons_append]
      exact congrArg (x :: ·) this

theorem list_set_decomp {α : Type} (a : α) :
    ∀ (xs : List α) (n : Nat), n < xs.length →
      xs.set n a = xs.take n ++ a :: xs.drop (n + 1) := by
  intro xs
  induction xs with
  | nil => intro n h; simp at h
  | cons x xs ih =>
    intro n h
    cases n with
    | zero => simp
    | succ m =>
      have := ih m (by simpa using h)
      simp only [List.set_cons_succ, List.take_succ_cons, List.drop_succ_cons,
        List.cons_append]
      exact congrArg (x :: ·) this

/-- C2 (amended): replacing a recognized declaration line with an inert line
(one recognizing no header and leaving no open block comment, as a line
comment does) removes exactly that declaration, provided the scan is outside
a block comment at the line and the original line itself leaves no open
block comment: the header-line list loses exactly the entry for the edited
line, headers before the edit are unchanged, every remaining difference lies
after the edit, and the count drops by one. -/
theorem claim_C2 (fp : String) (lines : List String) (l : Nat) (r : String)
    (hlen : l < lines.length)
    (hml : (stateBefore fp lines (l + 1)).inMultiLineComment = false)
    (hhdr : (matchHeader (stripComments (lines.getD l "").data)).isSome = true)
    (hnc : hasUnclosedMultiLineComment (lines.getD l "").data = false)
    (hr1 : matchHeader (stripComments r.data) = none)
    (hr2 : hasUnclosedMultiLineComment r.data = false) :
    ∃ A C : List Nat,
      (parseLines fp lines).map ALObjectWithFields.lineNumber = A ++ (l + 1) :: C ∧
      (parseLines fp (lines.set l r)).map ALObjectWithFields.lineNumber = A ++ C ∧
      (∀ x ∈ A, x ≤ l) ∧ (∀ x ∈ C, l + 1 < x) ∧
      (parseLines fp lines).length = (parseLines fp (lines.set l r)).length + 1 := by
  have hs₀ : stateBefore fp lines (l + 1) =
      (lines.take l).foldl (stepFn fp) initState := rfl
  set s₀ := (lines.take l).foldl (stepFn fp) initState with hdef
  rw [hs₀] at hml
  have hdec : lines = lines.take l ++ lines.getD l "" :: lines.drop (l + 1) :=
    list_decomp "" lines l hlen
  have hdec2 : lines.set l r = lines.take l ++ r :: lines.drop (l + 1) :=
    list_set_decomp r lines l hlen
  have hmap1 : (parseLines fp lines).map ALObjectWithFields.lineNumber =
      headersOf (lines.foldl (stepFn fp) initState) := by
    unfold parseLines headersOf
    rw [List.map_append]
  have hmap2 : (parseLines fp (lines.set l r)).map ALObjectWithFields.lineNumber =
      headersOf ((lines.set l r).foldl (stepFn fp) initState) := by
    unfold parseLines headersOf
    rw [List.map_append]
  have h1 : lines.foldl (stepFn fp) initState =
      (lines.drop (l + 1)).foldl (stepFn fp)
        (stepFn fp s₀ (lines.getD l "")) := by
    conv_lhs => rw [hdec]
    rw [List.foldl_append, List.foldl_cons]
  have h2 : (lines.set l r).foldl (stepFn fp) initState =
      (lines.drop (l + 1)).foldl (stepFn fp) (stepFn fp s₀ r) := by
    rw [hdec2, List.foldl_append, List.foldl_cons]
  have hlineNo : s₀.lineNo = l := by
    rw [hdef, lineNo_foldl]
    simp [initState, List.length_take]
    omega
  have e1 : headersOf (stepFn fp s₀ (lines.getD l "")) =
      headersOf s₀ ++ [l + 1] := by
    rw [headersOf_stepFn, hml, hlineNo]
    simp only [headerEv, Bool.false_eq_true, if_false, hhdr, if_true]
  have e2 : headersOf (stepFn fp s₀ r) = headersOf s₀ := by
    rw [headersOf_stepFn, hml]
    simp [headerEv, hr1]
  have eml1 : (stepFn fp s₀ (lines.getD l "")).inMultiLineComment = false := by
    rw [inML_stepFn, hml]
    simp only [inMLAfter, Bool.false_eq_true, if_false, hnc]
  have eml2 : (stepFn fp s₀ r).inMultiLineComment = false := by
    rw [inML_stepFn, hml]
    simp [inMLAfter, hr2]
  have hbound : ∀ x ∈ headersOf s₀, x ≤ l := by
    intro x hx
    have hb := headersOf_bound fp (lines.take l) initState
      (by simp [headersOf, initState]) x hx
    rw [← hdef] at hb
    rw [hlineNo] at hb
    exact hb
  obtain ⟨C, hc1, hc2, hC⟩ :=
    headers_sim fp (l + 1) (lines.drop (l + 1))
      (stepFn fp s₀ (lines.getD l "")) (stepFn fp s₀ r)
      (headersOf s₀) []
      (by rw [eml1, eml2])
      (by rw [lineNo_stepFn, lineNo_stepFn])
      (by rw [lineNo_stepFn, hlineNo])
      (by rw [e1])
      (by rw [e2]; simp)
  simp only [List.nil_append] at hc1 hc2
  have g1 : (parseLines fp lines).map ALObjectWithFields.lineNumber =
      headersOf s₀ ++ (l + 1) :: C := by
    rw [hmap1, h1]
    exact hc1
  have g2 : (parseLines fp (lines.set l r)).map ALObjectWithFields.lineNumber =
      headersOf s₀ ++ C := by
    rw [hmap2, h2]
    exact hc2
  refine ⟨headersOf s₀, C, g1, g2, hbound, hC, ?_⟩
  have t1 := congrArg List.length g1
  have t2 := congrArg List.length g2
  simp only [List.length_map, List.length_append, List.length_cons] at t1 t2
  omega

/-- Counterexample to the literal C2: in the unit whose lines are table 1 A
followed by a block-comment opener, table 2 B, and the closing marker, the
scanner recognizes a declaration at line 1, yet replacing line 1 with a line
comment yields the SAME number of declarations (the edit un-comments line 2),
not one fewer. -/
theorem claim_C2_counterexample :
    ((parseLines "u" ["table 1 A /*", "table 2 B", "*/"]).map
        ALObjectWithFields.lineNumber = [1]) ∧
    ((parseLines "u" (["table 1 A /*", "table 2 B", "*/"].set 0 "// x")).map
        ALObjectWithFields.lineNumber = [2]) ∧
    ((parseLines "u" (["table 1 A /*", "table 2 B", "*/"].set 0 "// x")).length =
      (parseLines "u" ["table 1 A /*", "table 2 B", "*/"]).length) := by
  refine ⟨by decide, by decide, by decide⟩

/-- Witness for the amended C2 at a concrete unit: removing the table 1 A
header line of a two-line unit drops the declaration count from one to zero. -/
theorem claim_C2_witness :
    (parseLines "u" ["table 1 A", "\x7b\x7d"]).length =
      (parseLines "u" (["table 1 A", "\x7b\x7d"].set 0 "// x")).length + 1 := by
  obtain ⟨A, C, g1, g2, hA, hC, hlen⟩ :=
    claim_C2 "u" ["table 1 A", "\x7b\x7d"] 0 "// x"
      (by decide) (by decide) (by decide) (by decide) (by decide) (by decide)
  exact hlen

/-! ### C3: field and value line bounds -/

theorem matchKw_head (k : Char) (ks cs : List Char) (r : List Char)
    (h : matchKw (k :: ks) cs = some r) :
    ∃ c cs', cs = c :: cs' ∧ c.toLower = k.toLower := by
  cases cs with
  | nil => simp [matchKw] at h
  | cons c cs' =>
    simp only [matchKw] at h
    by_cases hc : c.toLower = k.toLower
    · exact ⟨c, cs', rfl, hc⟩
    · rw [if_neg hc] at h
      exact absurd h (by simp)

theorem tryKind_none_of_head (kw : String) (t : ALObjectType) (k : Char)
    (ks : List Char) (hkw : kw.data = k :: ks) (c : Char) (rest : List Char)
    (hne : ¬ c.toLower = k.toLower) :
    tryKind kw t (c :: rest) = none := by
  unfold tryKind
  rw [hkw]
  simp only [matchKw, if_neg hne]

theorem tryKinds_none_of_fv (c : Char) (rest : List Char)
    (hc : c.toLower = 'f' ∨ c.toLower = 'v') :
    tryKinds kindList (c :: rest) = none := by
  have h1 : tryKind "table" ALObjectType.table (c :: rest) = none :=
    tryKind_none_of_head _ _ 't' _ rfl c rest
      (by rcases hc with hc | hc <;> rw [hc] <;> decide)
  have h2 : tryKind "tableextension" ALObjectType.tableextension (c :: rest) = none :=
    tryKind_none_of_head _ _ 't' _ rfl c rest
      (by rcases hc with hc | hc <;> rw [hc] <;> decide)
  have h3 : tryKind "page" ALObjectType.page (c :: rest) = none :=
    tryKind_none_of_head _ _ 'p' _ rfl c rest
      (by rcases hc with hc | hc <;> rw [hc] <;> decide)
  have h4 : tryKind "pageextension" ALObjectType.pageextension (c :: rest) = none :=
    tryKind_none_of_head _ _ 'p' _ rfl c rest
      (by rcases hc with hc | hc <;> rw [hc] <;> decide)
  have h5 : tryKind "report" ALObjectType.report (c :: rest) = none :=
    tryKind_none_of_head _ _ 'r' _ rfl c rest
      (by rcases hc with hc | hc <;> rw [hc] <;> decide)
  have h6 : tryKind "reportextension" ALObjectType.reportextension (c :: rest) = none :=
    tryKind_none_of_head _ _ 'r' _ rfl c rest
      (by rcases hc with hc | hc <;> rw [hc] <;> decide)
  have h7 : tryKind "codeunit" ALObjectType.codeunit (c :: rest) = none :=
    tryKind_none_of_head _ _ 'c' _ rfl c rest
      (by rcases hc with hc | hc <;> rw [hc] <;> decide)
  have h8 : tryKind "query" ALObjectType.query (c :: rest) = none :=
    tryKind_none_of_head _ _ 'q' _ rfl c rest
      (by rcases hc with hc | hc <;> rw [hc] <;> decide)
  have h9 : tryKind "xmlport" ALObjectType.xmlport (c :: rest) = none :=
    tryKind_none_of_head _ _ 'x' _ rfl c rest
      (by rcases hc with hc | hc <;> rw [hc] <;> decide)
  have h10 : tryKind "enum" ALObjectType.enum (c :: rest) = none :=
    tryKind_none_of_head _ _ 'e' _ rfl c rest
      (by rcases hc with hc | hc <;> rw [hc] <;> decide)
  have h11 : tryKind "enumextension" ALObjectType.enumextension (c :: rest) = none :=
    tryKind_none_of_head _ _ 'e' _ rfl c rest
      (by rcases hc with hc | hc <;> rw [hc] <;> decide)
  have h12 : tryKind "permissionset" ALObjectType.permissionset (c :: rest) = none :=
    tryKind_none_of_head _ _ 'p' _ rfl c rest
      (by rcases hc with hc | hc <;> rw [hc] <;> decide)
  have h13 : tryKind "permissionsetextension" ALObjectType.permissionsetextension
      (c :: rest) = none :=
    tryKind_none_of_head _ _ 'p' _ rfl c rest
      (by rcases hc with hc | hc <;> rw [hc] <;> decide)
  simp only [kindList, tryKinds, h1, h2, h3, h4, h5, h6, h7, h8, h9, h10, h11,
    h12, h13]

theorem matchField_of_header (cs : List Char)
    (h : (matchHeader cs).isSome = true) : matchField cs = none := by
  unfold matchHeader at h
  cases hcs : cs.dropWhile isJsSpace with
  | nil =>
    rw [hcs] at h
    exact absurd h (by decide)
  | cons c rest =>
    rw [hcs] at h
    by_cases hc : c.toLower = 'f'
    · rw [tryKinds_none_of_fv c rest (Or.inl hc)] at h
      exact absurd h (by simp)
    · have hkw : matchKw "field".data (c :: rest) = none := by
        show matchKw ('f' :: "ield".data) (c :: rest) = none
        simp only [matchKw]
        rw [if_neg (by simpa using hc)]
      simp only [matchField, hcs, hkw]

theorem matchValue_of_header (cs : List Char)
    (h : (matchHeader cs).isSome = true) : matchValue cs = none := by
  unfold matchHeader at h
  cases hcs : cs.dropWhile isJsSpace with
  | nil =>
    rw [hcs] at h
    exact absurd h (by decide)
  | cons c rest =>
    rw [hcs] at h
    by_cases hc : c.toLower = 'v'
    · rw [tryKinds_none_of_fv c rest (Or.inr hc)] at h
      exact absurd h (by simp)
    · have hkw : matchKw "value".data (c :: rest) = none := by
        show matchKw ('v' :: "alue".data) (c :: rest) = none
        simp only [matchKw]
        rw [if_neg (by simpa using hc)]
      simp only [matchValue, hcs, hkw]

theorem applyField_char (cleaned : List Char) (ln : Nat) (fp : String)
    (inF : Bool) (c? : Option ALObjectWithFields) (d : ALObjectWithFields)
    (h : applyField cleaned ln fp inF c? = some d) :
    ∃ c, c? = some c ∧ d.lineNumber = c.lineNumber ∧
      d.enumValues = c.enumValues ∧
      ∀ f ∈ d.fields.getD [], f ∈ c.fields.getD [] ∨ f.lineNumber = ln := by
  cases c? with
  | none => simp [applyField] at h
  | some c =>
    refine ⟨c, rfl, ?_⟩
    simp only [applyField] at h
    by_cases hcond : (inF = true ∧ isTableKind c.type = true)
    · rw [if_pos hcond] at h
      cases hf : matchField cleaned with
      | none =>
        rw [hf] at h
        injection h with h
        subst h
        exact ⟨rfl, rfl, fun f hf => Or.inl hf⟩
      | some t =>
        obtain ⟨fid, fnm, fty⟩ := t
        rw [hf] at h
        injection h with h
        subst h
        refine ⟨rfl, rfl, ?_⟩
        intro f hmem
        have hmem' : f ∈ c.fields.getD [] ++ [ALField.mk fid fnm fty ln fp] := hmem
        rcases List.mem_append.1 hmem' with h1 | h2
        · exact Or.inl h1
        · right
          rw [List.mem_singleton.1 h2]
    · rw [if_neg hcond] at h
      injection h with h
      subst h
      exact ⟨rfl, rfl, fun f hf => Or.inl hf⟩

theorem applyValue_char (cleaned : List Char) (ln : Nat) (fp : String)
    (bd : Int) (c? : Option ALObjectWithFields) (d : ALObjectWithFields)
    (h : applyValue cleaned ln fp bd c? = some d) :
    ∃ c, c? = some c ∧ d.lineNumber = c.lineNumber ∧ d.fields = c.fields ∧
      ∀ v ∈ d.enumValues.getD [], v ∈ c.enumValues.getD [] ∨ v.lineNumber = ln := by
  cases c? with
  | none => simp [applyValue] at h
  | some c =>
    refine ⟨c, rfl, ?_⟩
    simp only [applyValue] at h
    by_cases hcond : (isEnumKind c.type = true ∧ bd > 0)
    · rw [if_pos hcond] at h
      cases hv : matchValue cleaned with
      | none =>
        rw [hv] at h
        injection h with h
        subst h
        exact ⟨rfl, rfl, fun v hv => Or.inl hv⟩
      | some t =>
        obtain ⟨vid, vnm⟩ := t
        rw [hv] at h
        injection h with h
        subst h
        refine ⟨rfl, rfl, ?_⟩
        intro v hmem
        have hmem' : v ∈ c.enumValues.getD [] ++ [ALEnumValue.mk vid vnm ln fp] := hmem
        rcases List.mem_append.1 hmem' with h1 | h2
        · exact Or.inl h1
        · right
          rw [List.mem_singleton.1 h2]
    · rw [if_neg hcond] at h
      injection h with h
      subst h
      exact ⟨rfl, rfl, fun v hv => Or.inl hv⟩

theorem applyValue_noop (cleaned : List Char) (ln : Nat) (fp : String)
    (bd : Int) (c? : Option ALObjectWithFields) (h : bd ≤ 0) :
    applyValue cleaned ln fp bd c? = c? := by
  cases c? with
  | none => rfl
  | some c =>
    simp only [applyValue]
    have hno : ¬(isEnumKind c.type = true ∧ bd > 0) := by
      intro hcond
      omega
    rw [if_neg hno]

theorem applyField_skip (cleaned : List Char) (ln : Nat) (fp : String)
    (inF : Bool) (c? : Option ALObjectWithFields)
    (h : matchField cleaned = none) :
    applyField cleaned ln fp inF c? = c? := by
  cases c? with
  | none => rfl
  | some c =>
    simp only [applyField]
    by_cases hcond : (inF = true ∧ isTableKind c.type = true)
    · rw [if_pos hcond, h]
    · rw [if_neg hcond]

theorem applyValue_skip (cleaned : List Char) (ln : Nat) (fp : String)
    (bd : Int) (c? : Option ALObjectWithFields)
    (h : matchValue cleaned = none) :
    applyValue cleaned ln fp bd c? = c? := by
  cases c? with
  | none => rfl
  | some c =>
    simp only [applyValue]
    by_cases hcond : (isEnumKind c.type = true ∧ bd > 0)
    · rw [if_pos hcond, h]
    · rw [if_neg hcond]

theorem take_succ_getD {α : Type} (d : α) :
    ∀ (xs : List α) (n : Nat), n < xs.length →
      xs.take (n + 1) = xs.take n ++ [xs.getD n d] := by
  intro xs
  induction xs with
  | nil => intro n h; simp at h
  | cons x xs ih =>
    intro n h
    cases n with
    | zero => simp [List.getD]
    | succ m =>
      have := ih m (by simpa using h)
      simp only [List.take_succ_cons, List.getD_cons_succ, List.cons_append]
      exact congrArg (x :: ·) this

theorem ite_none_some {α : Type} (p : Prop) [Decidable p] (x : Option α)
    (a : α) (h : (if p then none else x) = some a) : x = some a := by
  by_cases hp : p
  · rw [if_pos hp] at h
    exact absurd h (by simp)
  · rwa [if_neg hp] at h

theorem mem_ite_close {α : Type} (p : Prop) [Decidable p] (F : List α)
    (c3 : Option α) (d : α)
    (h : d ∈ (if p then F ++ c3.toList else F) ++
      (if p then (none : Option α) else c3).toList) :
    d ∈ F ++ c3.toList := by
  by_cases hp : p
  · simp only [if_pos hp, Option.toList_none, List.append_nil] at h
    exact h
  · simp only [if_neg hp] at h
    exact h

theorem mem_ite_fin {α : Type} (p : Prop) [Decidable p] (F : List α)
    (c3 : Option α) (d : α) (h : d ∈ (if p then F ++ c3.toList else F)) :
    d ∈ F ∨ (p ∧ c3 = some d) := by
  by_cases hp : p
  · rw [if_pos hp] at h
    rcases List.mem_append.1 h with h | h
    · exact Or.inl h
    · right
      refine ⟨hp, ?_⟩
      cases c3 with
      | none => simp at h
      | some x =>
        simp only [Option.toList_some, List.mem_singleton] at h
        rw [h]
  · rw [if_neg hp] at h
    exact Or.inl h

theorem stepCore_current_src (fp : String) (s : ScanState) (w : List Char)
    (c' : ALObjectWithFields) (h : (stepCore fp s w).current = some c') :
    (∃ c, s.current = some c ∧ c'.lineNumber = c.lineNumber) ∨
      c'.lineNumber = s.lineNo + 1 := by
  cases hmh : matchHeader (stripComments w) with
  | none =>
    have h1 : headerCtx fp s (s.lineNo + 1) (stripComments w) =
        (s.current, s.finished, s.braceDepth, s.inFieldsBlock,
         s.expectingFieldsBlockBrace) := by
      unfold headerCtx
      rw [hmh]
    simp only [stepCore, h1] at h
    have h' := ite_none_some _ _ _ h
    obtain ⟨c2, hc2, hln2, _, _⟩ := applyValue_char _ _ _ _ _ _ h'
    obtain ⟨c, hc, hln, _, _⟩ := applyField_char _ _ _ _ _ _ hc2
    exact Or.inl ⟨c, hc, hln2.trans hln⟩
  | some h3 =>
    obtain ⟨ty, oid, nm⟩ := h3
    have h1 : headerCtx fp s (s.lineNo + 1) (stripComments w) =
        (some { type := ty, id := oid, name := nm, lineNumber := s.lineNo + 1,
                filePath := fp,
                extendsObject := findExtends (stripComments w),
                fields := if isTableKind ty then some [] else none,
                enumValues := if isEnumKind ty then some [] else none },
         s.finished ++ s.current.toList, (0 : Int), false, false) := by
      unfold headerCtx
      rw [hmh]
    simp only [stepCore, h1] at h
    have h' := ite_none_some _ _ _ h
    obtain ⟨c2, hc2, hln2, _, _⟩ := applyValue_char _ _ _ _ _ _ h'
    obtain ⟨c, hc, hln, _, _⟩ := applyField_char _ _ _ _ _ _ hc2
    injection hc with hc
    right
    rw [hln2, hln, ← hc]

theorem stepFn_current_src (fp : String) (s : ScanState) (line : String)
    (c' : ALObjectWithFields) (h : (stepFn fp s line).current = some c') :
    (∃ c, s.current = some c ∧ c'.lineNumber = c.lineNumber) ∨
      c'.lineNumber = s.lineNo + 1 := by
  unfold stepFn at h
  cases he : effectiveLine s line with
  | none =>
    rw [he] at h
    exact Or.inl ⟨c', h, rfl⟩
  | some w =>
    rw [he] at h
    exact stepCore_current_src fp s w c' h

theorem current_le_lineNo (fp : String) :
    ∀ (xs : List String) (s : ScanState),
      (∀ c, s.current = some c → c.lineNumber ≤ s.lineNo) →
      ∀ c, (xs.foldl (stepFn fp) s).current = some c →
        c.lineNumber ≤ (xs.foldl (stepFn fp) s).lineNo := by
  intro xs
  induction xs with
  | nil => intro s h; simpa using h
  | cons line rest ih =>
    intro s h
    rw [List.foldl_cons]
    apply ih
    intro c hc
    rw [lineNo_stepFn]
    rcases stepFn_current_src fp s line c hc with ⟨c0, hc0, hln⟩ | hln
    · have := h c0 hc0
      omega
    · omega

theorem closesAtB_le_len (fp : String) (lines : List String) (j k : Nat)
    (h : closesAtB fp lines j k = true) : 1 ≤ j ∧ j ≤ lines.length := by
  unfold closesAtB at h
  split at h
  · assumption
  · exact absurd h (by simp)

theorem stateBefore_lineNo (fp : String) (lines : List String) (j : Nat)
    (hj : j ≤ lines.length + 1) :
    (stateBefore fp lines j).lineNo = j - 1 := by
  unfold stateBefore
  rw [lineNo_foldl]
  simp [initState, List.length_take]
  omega

theorem closesAtB_le (fp : String) (lines : List String) (j k : Nat)
    (h : closesAtB fp lines j k = true) : k ≤ j := by
  obtain ⟨hj1, hj2⟩ := closesAtB_le_len fp lines j k h
  unfold closesAtB at h
  rw [if_pos (⟨hj1, hj2⟩ : 1 ≤ j ∧ j ≤ lines.length)] at h
  rw [Bool.and_eq_true] at h
  obtain ⟨hmid, _⟩ := h
  rw [beq_iff_eq] at hmid
  have hlin : (stateBefore fp lines j).lineNo = j - 1 :=
    stateBefore_lineNo fp lines j (by omega)
  have hcur : ∀ c, (stateBefore fp lines j).current = some c →
      c.lineNumber ≤ j - 1 := by
    intro c hc
    have hb := current_le_lineNo fp (lines.take (j - 1)) initState
      (by intro c hc; simp [initState] at hc) c hc
    have hlin' : ((lines.take (j - 1)).foldl (stepFn fp) initState).lineNo =
        j - 1 := hlin
    rw [hlin'] at hb
    exact hb
  unfold midCurrentHeader at hmid
  cases he : effectiveLine (stateBefore fp lines j) (lines.getD (j - 1) "") with
  | none =>
    rw [he] at hmid
    rw [Option.map_eq_some'] at hmid
    obtain ⟨c, hc, hk⟩ := hmid
    have := hcur c hc
    omega
  | some w =>
    rw [he] at hmid
    split at hmid
    · exact absurd (by assumption : some w = none) (by simp)
    · split at hmid
      · injection hmid with hmid
        rw [hlin] at hmid
        omega
      · rw [Option.map_eq_some'] at hmid
        obtain ⟨c, hc, hk⟩ := hmid
        have := hcur c hc
        omega

theorem closesAtB_false_of_current_some (fp : String) (lines : List String)
    (j k : Nat) (c : ALObjectWithFields)
    (h : (stepFn fp (stateBefore fp lines j) (lines.getD (j - 1) "")).current =
      some c) :
    closesAtB fp lines j k = false := by
  unfold closesAtB
  split
  · rw [h]
    simp
  · rfl

theorem toList_mem {α : Type} (c : Option α) (d : α) (h : d ∈ c.toList) :
    c = some d := by
  cases c with
  | none => simp at h
  | some x =>
    simp only [Option.toList_some, List.mem_singleton] at h
    rw [h]

theorem cur_mem (s : ScanState) (c : ALObjectWithFields)
    (h : s.current = some c) : c ∈ s.finished ++ s.current.toList := by
  rw [h]
  simp

theorem DeclBounds_mono (n : Nat) (d : ALObjectWithFields)
    (h : DeclBounds n d) : DeclBounds (n + 1) d := by
  obtain ⟨h1, h2, h3, h4⟩ := h
  refine ⟨h1, by omega, ?_, ?_⟩
  · intro f hf
    obtain ⟨a, b⟩ := h3 f hf
    exact ⟨a, by omega⟩
  · intro v hv
    obtain ⟨a, b⟩ := h4 v hv
    exact ⟨a, by omega⟩

theorem ClosedOK_succ (fp : String) (lines : List String) (n : Nat)
    (d : ALObjectWithFields) (hco : ClosedOK fp lines n d)
    (hb : DeclBounds n d) : ClosedOK fp lines (n + 1) d := by
  intro j hj hcl
  rcases Nat.lt_or_ge j (n + 1) with hlt | hge
  · exact hco j (by omega) hcl
  · obtain ⟨_, _, hf, hv⟩ := hb
    refine ⟨?_, ?_⟩
    · intro f hfm
      have := hf f hfm
      omega
    · intro v hvm
      have := hv v hvm
      omega

theorem invC3_step (fp : String) (lines : List String) (n : Nat)
    (hn : n < lines.length) (ih : InvC3 fp lines n) : InvC3 fp lines (n + 1) := by
  obtain ⟨ih1, ih2, ih3, ih5⟩ := ih
  set s := (lines.take n).foldl (stepFn fp) initState with hsdef
  have hstep : (lines.take (n + 1)).foldl (stepFn fp) initState =
      stepFn fp s (lines.getD n "") := by
    rw [take_succ_getD "" lines n hn, List.foldl_append, List.foldl_cons,
      List.foldl_nil, ← hsdef]
  unfold InvC3
  rw [hstep]
  cases he : effectiveLine s (lines.getD n "") with
  | none =>
    have hsf : stepFn fp s (lines.getD n "") = { s with lineNo := s.lineNo + 1 } := by
      unfold stepFn
      rw [he]
    rw [hsf]
    refine ⟨?_, ?_, ?_, ?_⟩
    · show s.lineNo + 1 = n + 1
      omega
    · intro d hd
      have hd' : d ∈ s.finished ++ s.current.toList := hd
      exact DeclBounds_mono n d (ih2 d hd')
    · intro d hd
      have hd' : d ∈ s.finished := hd
      exact ClosedOK_succ fp lines n d (ih3 d hd')
        (ih2 d (List.mem_append_left _ hd'))
    · intro c hc j hj
      have hc' : s.current = some c := hc
      rcases Nat.lt_or_ge j (n + 1) with hlt | hge
      · exact ih5 c hc' j (by omega)
      · have hj' : j = n + 1 := by omega
        subst hj'
        have hx : (stepFn fp s (lines.getD n "")).current = some c := by
          rw [hsf]
          exact hc'
        rw [hsdef] at hx
        have hz : (stepFn fp (stateBefore fp lines (n + 1))
            (lines.getD ((n + 1) - 1) "")).current = some c := hx
        exact closesAtB_false_of_current_some fp lines (n + 1) c.lineNumber c hz
  | some w =>
    have hsf : stepFn fp s (lines.getD n "") = stepCore fp s w := by
      unfold stepFn
      rw [he]
    rw [hsf]
    cases hmh : matchHeader (stripComments w) with
    | none =>
      have h1 : headerCtx fp s (s.lineNo + 1) (stripComments w) =
          (s.current, s.finished, s.braceDepth, s.inFieldsBlock,
           s.expectingFieldsBlockBrace) := by
        unfold headerCtx
        rw [hmh]
      simp only [stepCore, h1]
      refine ⟨?_, ?_, ?_, ?_⟩
      · omega
      · intro d hd
        have hd2 := mem_ite_close _ _ _ _ hd
        rcases List.mem_append.1 hd2 with hdF | hdC
        · exact DeclBounds_mono n d (ih2 d (List.mem_append_left _ hdF))
        · have hc3 := toList_mem _ _ hdC
          obtain ⟨c2, hc2v, hdln2, hdf2, hdvals⟩ := applyValue_char _ _ _ _ _ _ hc3
          obtain ⟨c, hc, hln, hev, hfs⟩ := applyField_char _ _ _ _ _ _ hc2v
          obtain ⟨hb1, hb2, hbf, hbv⟩ := ih2 c (cur_mem s c hc)
          have hdlc : d.lineNumber = c.lineNumber := hdln2.trans hln
          refine ⟨by omega, by omega, ?_, ?_⟩
          · intro f hf
            rw [hdf2] at hf
            rcases hfs f hf with hin | hnew
            · obtain ⟨a, b⟩ := hbf f hin
              exact ⟨by omega, by omega⟩
            · exact ⟨by omega, by omega⟩
          · intro v hv
            rcases hdvals v hv with hin | hnew
            · rw [hev] at hin
              obtain ⟨a, b⟩ := hbv v hin
              exact ⟨by omega, by omega⟩
            · exact ⟨by omega, by omega⟩
      · intro d hd
        rcases mem_ite_fin _ _ _ _ hd with hdF | ⟨hp, hc3⟩
        · exact ClosedOK_succ fp lines n d (ih3 d hdF)
            (ih2 d (List.mem_append_left _ hdF))
        · obtain ⟨_, hbd, _⟩ := hp
          rw [applyValue_noop _ _ _ _ _ hbd] at hc3
          obtain ⟨c, hc, hln, hev, hfs⟩ := applyField_char _ _ _ _ _ _ hc3
          obtain ⟨hb1, hb2, hbf, hbv⟩ := ih2 c (cur_mem s c hc)
          intro j hj hcl
          rcases Nat.lt_or_ge j (n + 1) with hlt | hge
          · rw [hln] at hcl
            have hfalse := ih5 c hc j (by omega)
            rw [hfalse] at hcl
            exact absurd hcl (by simp)
          · have hj' : j = n + 1 := by omega
            refine ⟨?_, ?_⟩
            · intro f hf
              rcases hfs f hf with hin | hnew
              · obtain ⟨a, b⟩ := hbf f hin
                omega
              · omega
            · intro v hv
              rw [hev] at hv
              obtain ⟨a, b⟩ := hbv v hv
              omega
      · intro c hc j hj
        have hc3 := ite_none_some _ _ _ hc
        rcases Nat.lt_or_ge j (n + 1) with hlt | hge
        · obtain ⟨c2, hc2v, hdln2, _, _⟩ := applyValue_char _ _ _ _ _ _ hc3
          obtain ⟨c0, hc0, hln, _, _⟩ := applyField_char _ _ _ _ _ _ hc2v
          have : c.lineNumber = c0.lineNumber := hdln2.trans hln
          rw [this]
          exact ih5 c0 hc0 j (by omega)
        · have hj' : j = n + 1 := by omega
          subst hj'
          have hx : (stepFn fp s (lines.getD n "")).current = some c := by
            rw [hsf]
            simp only [stepCore, h1]
            exact hc
          rw [hsdef] at hx
          have hz : (stepFn fp (stateBefore fp lines (n + 1))
              (lines.getD ((n + 1) - 1) "")).current = some c := hx
          exact closesAtB_false_of_current_some fp lines (n + 1) c.lineNumber c hz
    | some h3 =>
      obtain ⟨ty, oid, nm⟩ := h3
      have h1 : headerCtx fp s (s.lineNo + 1) (stripComments w) =
          (some { type := ty, id := oid, name := nm, lineNumber := s.lineNo + 1,
                  filePath := fp,
                  extendsObject := findExtends (stripComments w),
                  fields := if isTableKind ty then some [] else none,
                  enumValues := if isEnumKind ty then some [] else none },
           s.finished ++ s.current.toList, (0 : Int), false, false) := by
        unfold headerCtx
        rw [hmh]
      have hiss : (matchHeader (stripComments w)).isSome = true := by
        rw [hmh]
        rfl
      have hfield := matchField_of_header _ hiss
      have hvalue := matchValue_of_header _ hiss
      simp only [stepCore, h1]
      rw [applyField_skip _ _ _ _ _ hfield, applyValue_skip _ _ _ _ _ hvalue]
      refine ⟨?_, ?_, ?_, ?_⟩
      · omega
      · intro d hd
        have hd2 := mem_ite_close _ _ _ _ hd
        rcases List.mem_append.1 hd2 with hdF | hdC
        · exact DeclBounds_mono n d (ih2 d hdF)
        · have hc3 := toList_mem _ _ hdC
          injection hc3 with heq
          have hdln : d.lineNumber = s.lineNo + 1 := by
            rw [← heq]
          have hdf : d.fields =
              (if isTableKind ty then some [] else none : Option (List ALField)) := by
            rw [← heq]
          have hdv : d.enumValues =
              (if isEnumKind ty then some [] else none : Option (List ALEnumValue)) := by
            rw [← heq]
          refine ⟨by omega, by omega, ?_, ?_⟩
          · intro f hf
            rw [hdf] at hf
            by_cases hty : isTableKind ty = true
            · rw [if_pos hty] at hf
              simp at hf
            · rw [if_neg hty] at hf
              simp at hf
          · intro v hv
            rw [hdv] at hv
            by_cases hty : isEnumKind ty = true
            · rw [if_pos hty] at hv
              simp at hv
            · rw [if_neg hty] at hv
              simp at hv
      · intro d hd
        rcases mem_ite_fin _ _ _ _ hd with hdF | ⟨hp, hc3⟩
        · rcases List.mem_append.1 hdF with hdl | hdr
          · exact ClosedOK_succ fp lines n d (ih3 d hdl)
              (ih2 d (List.mem_append_left _ hdl))
          · have hcd := toList_mem _ _ hdr
            obtain ⟨hb1, hb2, hbf, hbv⟩ := ih2 d (cur_mem s d hcd)
            intro j hj hcl
            rcases Nat.lt_or_ge j (n + 1) with hlt | hge
            · have hfalse := ih5 d hcd j (by omega)
              rw [hfalse] at hcl
              exact absurd hcl (by simp)
            · refine ⟨?_, ?_⟩
              · intro f hf
                have := hbf f hf
                omega
              · intro v hv
                have := hbv v hv
                omega
        · injection hc3 with heq
          have hdf : d.fields =
              (if isTableKind ty then some [] else none : Option (List ALField)) := by
            rw [← heq]
          have hdv : d.enumValues =
              (if isEnumKind ty then some [] else none : Option (List ALEnumValue)) := by
            rw [← heq]
          intro j hj hcl
          refine ⟨?_, ?_⟩
          · intro f hf
            rw [hdf] at hf
            by_cases hty : isTableKind ty = true
            · rw [if_pos hty] at hf
              simp at hf
            · rw [if_neg hty] at hf
              simp at hf
          · intro v hv
            rw [hdv] at hv
            by_cases hty : isEnumKind ty = true
            · rw [if_pos hty] at hv
              simp at hv
            · rw [if_neg hty] at hv
              simp at hv
      · intro c hc j hj
        have hc3 := ite_none_some _ _ _ hc
        injection hc3 with heq
        have hcl : c.lineNumber = s.lineNo + 1 := by
          rw [← heq]
        rcases Nat.lt_or_ge j (n + 1) with hlt | hge
        · cases hb : closesAtB fp lines j c.lineNumber with
          | false => rfl
          | true =>
            have := closesAtB_le fp lines j c.lineNumber hb
            omega
        · have hj' : j = n + 1 := by omega
          subst hj'
          have hx : (stepFn fp s (lines.getD n "")).current = some c := by
            rw [hsf]
            simp only [stepCore, h1]
            rw [applyField_skip _ _ _ _ _ hfield, applyValue_skip _ _ _ _ _ hvalue]
            exact hc
          rw [hsdef] at hx
          have hz : (stepFn fp (stateBefore fp lines (n + 1))
              (lines.getD ((n + 1) - 1) "")).current = some c := hx
          exact closesAtB_false_of_current_some fp lines (n + 1) c.lineNumber c hz

theorem invC3_all (fp : String) (lines : List String) :
    ∀ n, n ≤ lines.length → InvC3 fp lines n := by
  intro n
  induction n with
  | zero =>
    intro _
    refine ⟨rfl, ?_, ?_, ?_⟩
    · intro d hd
      simp [initState] at hd
    · intro d hd
      simp [initState] at hd
    · intro c hc
      simp [initState] at hc
  | succ m ihm =>
    intro h
    exact invC3_step fp lines m (by omega) (ihm (by omega))

/-- C3 (amended): every field and every value attached to a produced
declaration has a line strictly after the declaration's header line; a line
that closes the declaration's scope bounds every field line from above
inclusively (a field CAN sit on the closing line, as the field match runs
before the close check) and every value line strictly. -/
theorem claim_C3 (fp : String) (lines : List String) (d : ALObjectWithFields)
    (hd : d ∈ parseLines fp lines) :
    (∀ f ∈ d.fields.getD [],
        d.lineNumber < f.lineNumber ∧
        ∀ j, closesAtB fp lines j d.lineNumber = true → f.lineNumber ≤ j) ∧
    (∀ v ∈ d.enumValues.getD [],
        d.lineNumber < v.lineNumber ∧
        ∀ j, closesAtB fp lines j d.lineNumber = true → v.lineNumber < j) := by
  obtain ⟨inv1, inv2, inv3, inv5⟩ := invC3_all fp lines lines.length (Nat.le_refl _)
  have hdm : d ∈ ((lines.take lines.length).foldl (stepFn fp) initState).finished ++
      ((lines.take lines.length).foldl (stepFn fp) initState).current.toList := by
    rw [List.take_length]
    exact hd
  obtain ⟨hb1, hb2, hbf, hbv⟩ := inv2 d hdm
  rcases List.mem_append.1 hdm with hfin | hcur
  · have hok := inv3 d hfin
    refine ⟨?_, ?_⟩
    · intro f hf
      refine ⟨(hbf f hf).1, ?_⟩
      intro j hcl
      have hjb := closesAtB_le_len fp lines j d.lineNumber hcl
      exact (hok j (by omega) hcl).1 f hf
    · intro v hv
      refine ⟨(hbv v hv).1, ?_⟩
      intro j hcl
      have hjb := closesAtB_le_len fp lines j d.lineNumber hcl
      exact (hok j (by omega) hcl).2 v hv
  · have hcd := toList_mem _ _ hcur
    have hnone := inv5 d hcd
    refine ⟨?_, ?_⟩
    · intro f hf
      refine ⟨(hbf f hf).1, ?_⟩
      intro j hcl
      have hjb := closesAtB_le_len fp lines j d.lineNumber hcl
      have hne := hnone j (by omega)
      rw [hne] at hcl
      exact absurd hcl (by simp)
    · intro v hv
      refine ⟨(hbv v hv).1, ?_⟩
      intro j hcl
      have hjb := closesAtB_le_len fp lines j d.lineNumber hcl
      have hne := hnone j (by omega)
      rw [hne] at hcl
      exact absurd hcl (by simp)

/-- Counterexample to the literal C3: in the five-line table whose last line
holds a field declaration and both closing braces, the field's line IS the
line on which the declaration's scope closes, not strictly before it. -/
theorem claim_C3_counterexample :
    ∃ d ∈ parseLines "u" ["table 1 T", "\x7b", "    fields", "    \x7b",
        "        field(1; F; Int) \x7d\x7d"],
      ∃ f ∈ d.fields.getD [],
        closesAtB "u" ["table 1 T", "\x7b", "    fields", "    \x7b",
            "        field(1; F; Int) \x7d\x7d"] f.lineNumber d.lineNumber = true := by
  decide

/-- Witness for the amended C3 at a concrete unit: a seven-line table with
one field on line 5; the header is line 1, the scope closes at line 7, and
the bounds 1 < 5 and 5 <= 7 hold. -/
theorem claim_C3_witness :
    ((⟨ALObjectType.table, 50000, "T", 1, "u", none,
        some [⟨1, "F", "Int", 5, "u"⟩], none⟩ : ALObjectWithFields) ∈
      parseLines "u" ["table 50000 T", "\x7b", "    fields", "    \x7b",
        "        field(1; F; Int)", "    \x7d", "\x7d"]) ∧
    (1 : Nat) < 5 ∧
    (closesAtB "u" ["table 50000 T", "\x7b", "    fields", "    \x7b",
        "        field(1; F; Int)", "    \x7d", "\x7d"] 7 1 = true) ∧
    (5 : Nat) ≤ 7 := by
  have hm : (⟨ALObjectType.table, 50000, "T", 1, "u", none,
      some [⟨1, "F", "Int", 5, "u"⟩], none⟩ : ALObjectWithFields) ∈
      parseLines "u" ["table 50000 T", "\x7b", "    fields", "    \x7b",
        "        field(1; F; Int)", "    \x7d", "\x7d"] := by decide
  have h := claim_C3 "u" ["table 50000 T", "\x7b", "    fields", "    \x7b",
      "        field(1; F; Int)", "    \x7d", "\x7d"] _ hm
  have hcl : closesAtB "u" ["table 50000 T", "\x7b", "    fields", "    \x7b",
      "        field(1; F; Int)", "    \x7d", "\x7d"] 7 1 = true := by decide
  exact ⟨hm, (h.1 ⟨1, "F", "Int", 5, "u"⟩ (by decide)).1, hcl,
    (h.1 ⟨1, "F", "Int", 5, "u"⟩ (by decide)).2 7 hcl⟩

/-! ### C8 and C10: manifest normalization -/

/-- C8: manifest normalization never throws: unparseable JSON (the none input)
or a manifest missing a required string field yields none rather than an
exception, and a valid manifest carrying a list of ranges keeps it, a single
range becomes a one-element list, and neither form present yields the empty
list. -/
theorem claim_C8 :
    parseAppJson none = none ∧
    (∀ kvs k, k ∈ ["id", "name", "publisher", "version"] →
      jsonLookup kvs k = none → AppJsonSchema (Json.obj kvs) = none) ∧
    (∀ kvs a xs, AppJsonSchema (Json.obj kvs) = some a →
      jsonLookup kvs "idRanges" = some (Json.arr xs) →
      mapOption IdRangeSchema xs = some a.idRanges) ∧
    (∀ kvs a r, AppJsonSchema (Json.obj kvs) = some a →
      jsonLookup kvs "idRanges" = none → jsonLookup kvs "idRange" = some r →
      ∃ ir, IdRangeSchema r = some ir ∧ a.idRanges = [ir]) ∧
    (∀ kvs a, AppJsonSchema (Json.obj kvs) = some a →
      jsonLookup kvs "idRanges" = none → jsonLookup kvs "idRange" = none →
      a.idRanges = []) := by
  refine ⟨rfl, ?_, ?_, ?_, ?_⟩
  · intro kvs k hk hnone
    have hps : parseString1 kvs k = none := by
      simp [parseString1, hnone]
    fin_cases hk <;> simp [AppJsonSchema, hps]
  · intro kvs a xs h hxs
    have hpr : parseOptRanges kvs = (mapOption IdRangeSchema xs).map some := by
      simp [parseOptRanges, hxs]
    simp only [AppJsonSchema, Option.bind_eq_some] at h
    obtain ⟨i, -, n, -, p, -, v, -, ro, hro, r1, -, ha⟩ := h
    rw [hpr] at hro
    cases hmo : mapOption IdRangeSchema xs with
    | none => rw [hmo] at hro; simp at hro
    | some l =>
      rw [hmo] at hro
      simp at hro
      obtain ⟨rfl⟩ := hro
      cases ha
      simp
  · intro kvs a r h hnone hsome
    have hpr : parseOptRanges kvs = some none := by
      simp [parseOptRanges, hnone]
    have hpo : parseOptRange kvs = (IdRangeSchema r).map some := by
      simp [parseOptRange, hsome]
    simp only [AppJsonSchema, Option.bind_eq_some] at h
    obtain ⟨i, -, n, -, p, -, v, -, ro, hro, r1, hr1, ha⟩ := h
    rw [hpr] at hro
    simp at hro
    subst hro
    rw [hpo] at hr1
    cases hir : IdRangeSchema r with
    | none => rw [hir] at hr1; simp at hr1
    | some ir =>
      rw [hir] at hr1
      simp at hr1
      subst hr1
      cases ha
      exact ⟨ir, rfl, rfl⟩
  · intro kvs a h hnone hnone2
    have hpr : parseOptRanges kvs = some none := by
      simp [parseOptRanges, hnone]
    have hpo : parseOptRange kvs = some none := by
      simp [parseOptRange, hnone2]
    simp only [AppJsonSchema, Option.bind_eq_some] at h
    obtain ⟨i, -, n, -, p, -, v, -, ro, hro, r1, hr1, ha⟩ := h
    rw [hpr] at hro
    simp at hro
    subst hro
    rw [hpo] at hr1
    simp at hr1
    subst hr1
    cases ha
    rfl

/-- Witness for C8 at concrete inputs: a manifest missing the name field is
rejected, and a valid manifest with a single idRange normalizes it to a
one-element list. -/
theorem claim_C8_witness :
    AppJsonSchema (Json.obj [("id", Json.str "x")]) = none ∧
    (∃ ir, IdRangeSchema (Json.obj [("from", Json.num 1), ("to", Json.num 5)]) = some ir ∧
      (AppJson.mk "i" "n" "p" "v" [⟨1, 5⟩]).idRanges = [ir]) :=
  ⟨claim_C8.2.1 [("id", Json.str "x")] "name" (by simp) (by rfl),
   claim_C8.2.2.2.1
     [("id", Json.str "i"), ("name", Json.str "n"), ("publisher", Json.str "p"),
      ("version", Json.str "v"),
      ("idRange", Json.obj [("from", Json.num 1), ("to", Json.num 5)])]
     (AppJson.mk "i" "n" "p" "v" [⟨1, 5⟩])
     (Json.obj [("from", Json.num 1), ("to", Json.num 5)])
     (by rfl) (by rfl) (by rfl)⟩

/-- C10: manifest normalization accepts an identifier range only when both
bounds are strictly positive integers with to at least from; an invalid range
supplied through idRanges or idRange invalidates the whole manifest, and the
range with from equal to 0 is rejected. -/
theorem claim_C10 :
    (∀ j ir, IdRangeSchema j = some ir →
      ∃ kvs jf jt, j = Json.obj kvs ∧
        jsonLookup kvs "from" = some jf ∧ jsonLookup kvs "to" = some jt ∧
        parsePositiveInt jf = some ir.from_ ∧ parsePositiveInt jt = some ir.to_ ∧
        0 < ir.from_ ∧ ir.from_ ≤ ir.to_) ∧
    (∀ j n, parsePositiveInt j = some n ↔
      ∃ q, j = Json.num q ∧ q.den = 1 ∧ 0 < q ∧ n = q.num.toNat) ∧
    (∀ kvs xs j, jsonLookup kvs "idRanges" = some (Json.arr xs) → j ∈ xs →
      IdRangeSchema j = none → AppJsonSchema (Json.obj kvs) = none) ∧
    (∀ kvs j, jsonLookup kvs "idRange" = some j → IdRangeSchema j = none →
      AppJsonSchema (Json.obj kvs) = none) ∧
    IdRangeSchema (Json.obj [("from", Json.num 0), ("to", Json.num 100)]) = none := by
  have hpos : ∀ j n, parsePositiveInt j = some n ↔
      ∃ q, j = Json.num q ∧ q.den = 1 ∧ 0 < q ∧ n = q.num.toNat := by
    intro j n
    constructor
    · intro h
      cases j with
      | num q =>
        simp only [parsePositiveInt] at h
        split at h
        · rename_i hq
          exact ⟨q, rfl, hq.1, hq.2, (Option.some.inj h).symm⟩
        · exact absurd h (by simp)
      | null => simp [parsePositiveInt] at h
      | bool b => simp [parsePositiveInt] at h
      | str s2 => simp [parsePositiveInt] at h
      | arr xs => simp [parsePositiveInt] at h
      | obj kvs => simp [parsePositiveInt] at h
    · rintro ⟨q, rfl, h1, h2, rfl⟩
      simp [parsePositiveInt, h1, h2]
  refine ⟨?_, hpos, ?_, ?_, by rfl⟩
  · intro j ir h
    cases j with
    | null => simp [IdRangeSchema] at h
    | bool b => simp [IdRangeSchema] at h
    | num q => simp [IdRangeSchema] at h
    | str s2 => simp [IdRangeSchema] at h
    | arr xs => simp [IdRangeSchema] at h
    | obj kvs =>
    simp only [IdRangeSchema] at h
    rw [Option.bind_eq_some] at h
    obtain ⟨jf, hjf, h⟩ := h
    rw [Option.bind_eq_some] at h
    obtain ⟨jt, hjt, h⟩ := h
    rw [Option.bind_eq_some] at h
    obtain ⟨f, hf, h⟩ := h
    rw [Option.bind_eq_some] at h
    obtain ⟨t, ht, h⟩ := h
    split at h
    · rename_i hge
      obtain ⟨rfl⟩ := Option.some.inj h
      obtain ⟨q, rfl, hden, hq, rfl⟩ := (hpos _ _).mp hf
      have hq' : 0 < q.num := Rat.num_pos.mpr hq
      refine ⟨kvs, _, jt, rfl, hjf, hjt, hf, ht, ?_, ?_⟩
      · show 0 < q.num.toNat
        omega
      · exact hge
    · exact absurd h (by simp)
  · intro kvs xs j hxs hj hnone
    have hbad : mapOption IdRangeSchema xs = none := by
      clear hxs
      induction xs with
      | nil => cases hj
      | cons x rest ih =>
        rcases List.mem_cons.mp hj with rfl | hmem
        · simp [mapOption, hnone]
        · unfold mapOption
          rw [ih hmem]
          cases IdRangeSchema x <;> simp
    have hpr : parseOptRanges kvs = none := by
      simp [parseOptRanges, hxs, hbad]
    cases h1 : parseString1 kvs "id" <;>
      cases h2 : parseString1 kvs "name" <;>
        cases h3 : parseString1 kvs "publisher" <;>
          cases h4 : parseString1 kvs "version" <;>
            simp [AppJsonSchema, h1, h2, h3, h4, hpr]
  · intro kvs j hj hnone
    have hpo : parseOptRange kvs = none := by
      simp [parseOptRange, hj, hnone]
    cases h1 : parseString1 kvs "id" <;>
      cases h2 : parseString1 kvs "name" <;>
        cases h3 : parseString1 kvs "publisher" <;>
          cases h4 : parseString1 kvs "version" <;>
            cases h5 : parseOptRanges kvs <;>
              simp [AppJsonSchema, h1, h2, h3, h4, h5, hpo]

/-- Witness for C10 at concrete inputs: a manifest whose idRanges list
contains the range with from equal to 0 is rejected as a whole. -/
theorem claim_C10_witness :
    AppJsonSchema (Json.obj [("idRanges",
      Json.arr [Json.obj [("from", Json.num 0), ("to", Json.num 100)]])]) = none :=
  claim_C10.2.2.1
    [("idRanges", Json.arr [Json.obj [("from", Json.num 0), ("to", Json.num 100)]])]
    [Json.obj [("from", Json.num 0), ("to", Json.num 100)]]
    (Json.obj [("from", Json.num 0), ("to", Json.num 100)])
    (by rfl) (List.Mem.head _) (by rfl)

end BCObjectRange